import Mathlib

/-!
Shallow embedding of the channel-resolution, range-calculation, attribute
regeneration and writer components of the `pygdtf` GDTF library
(`src/pygdtf/__init__.py`, `src/pygdtf/utils/__init__.py`,
`src/pygdtf/utils/attribute_regenerator.py`, `src/pygdtf/value.py`,
`src/pygdtf/dmxbreak.py`, `src/pygdtf/geometries.py`), together with
theorems settling the specification claims about those components.

Conventions of the embedding:
* Python `int` is modelled as `Int`; Python `float` physical quantities are
  modelled as `ℚ` (the source only ever adds, subtracts, multiplies and
  divides them, and no claim depends on rounding of binary floats).
* Python `None` is modelled as `Option.none`.
* Mutation of objects is modelled by explicit state passing; `copy.deepcopy`
  becomes ordinary value copying.
* Where Python would raise an uncaught exception (for example an
  out-of-range list index), the model picks a harmless total value and the
  spot is marked with a comment; no theorem below depends on such a case.
-/

namespace Pygdtf

/-- Model of `utils.get_int`: `int(string)` with a fallback default on
`ValueError`.  `String.toInt?` accepts the same sign-plus-digits forms as
Python for the inputs appearing in GDTF files. -/
def getInt (s : String) (dflt : Int) : Int :=
  match s.toInt? with
  | some n => n
  | none => dflt

/-- Model of `value.DmxAddress`: universe plus address, parsed from either
"u.a" or a bare address (the universe part, `univ`, then defaults to 1; the field is renamed because universe is a Lean keyword). -/
structure DmxAddress where
  univ : Int
  address : Int
  deriving Repr, DecidableEq

/-- Model of `dmxbreak.Break`: one Break entry on a GeometryReference. -/
structure BreakEntry where
  dmxOffset : DmxAddress
  dmxBreak : Int
  deriving Repr, DecidableEq

/-- Model of `value.DmxValue`: a DMX value together with its byte count. -/
structure DmxValue where
  value : Int
  byteCount : Int
  deriving Repr, DecidableEq

/-- Model of `DmxValue.__init__`: "none" and strings without a "/" leave the
defaults `0/1`; otherwise both halves are parsed with `get_int`. -/
def DmxValue.parse (s : String) : DmxValue :=
  if s.toLower = "none" then ⟨0, 1⟩
  else
    match s.splitOn "/" with
    | v :: bc :: _ => ⟨getInt v 0, getInt bc 1⟩
    | _ => ⟨0, 1⟩

/-- Model of `value.PhysicalSource` (an Enum with permitted values Set and
Function). -/
inductive PhysicalSource where
  | set
  | function
  deriving Repr, DecidableEq

/-- Model of `value.PhysicalValue`: an optional rational magnitude plus the
source marker (defaults to Set). -/
structure PhysicalValue where
  value : Option ℚ
  source : PhysicalSource
  deriving Repr, DecidableEq

/-- Model of `value.NodeLink`: a start point and an optional string link. -/
structure NodeLink where
  startPoint : String
  strLink : Option String
  deriving Repr, DecidableEq

/-- Model of `utils.dmx_to_physical` (src/pygdtf/utils/__init__.py lines
451-474), in the explicit-arguments form.  The three branches mirror the
source: degenerate DMX range, the `((dmx_from - dmx_to) + physical_from) == 0`
branch (whose returned expression is identically zero), and the linear
interpolation formula. -/
def dmxToPhysical (dmxValue dmxFrom dmxTo physicalFrom physicalTo : ℚ) : ℚ :=
  let dmxRange := dmxTo - dmxFrom
  if dmxRange = 0 then physicalFrom
  else if (dmxFrom - dmxTo) + physicalFrom = 0 then
    (dmxFrom - dmxFrom) * (physicalTo - physicalFrom)
  else
    (dmxValue - dmxFrom) * (physicalTo - physicalFrom) / (dmxTo - dmxFrom)
      + physicalFrom

/-- Model of `ChannelSet` (the fields read in `ChannelSet._read_xml` that
the resolution code uses).  `attrKeys` mirrors `_attr_keys`, the set of XML
attribute names present on the source element. -/
structure ChannelSet where
  name : Option String
  dmxFrom : DmxValue
  dmxTo : DmxValue
  physicalFrom : PhysicalValue
  physicalTo : PhysicalValue
  wheelSlotIndex : Int
  attrKeys : List String
  deriving Repr, DecidableEq

/-- Model of `ChannelFunction` (the fields that the range calculator, the
attribute regenerator and the claims use; link fields that no claim touches
are omitted). -/
structure ChannelFunction where
  name : Option String
  attr : NodeLink
  dmxFrom : DmxValue
  dmxTo : DmxValue
  default : DmxValue
  physicalFrom : PhysicalValue
  physicalTo : PhysicalValue
  channelSets : List ChannelSet
  deriving Repr, DecidableEq

/-- Model of `utils.dmx_to_physical` in its `channel_element` form, as it is
invoked on an enclosing ChannelFunction when computing a ChannelSet's
physical bounds.  A parsed ChannelFunction always has non-none physical
values (they default to 0 and 1), so `getD 0` is never exercised by the
claims. -/
def dmxToPhysicalOfFunction (dmxValue : ℚ) (cf : ChannelFunction) : ℚ :=
  dmxToPhysical dmxValue (cf.dmxFrom.value : ℚ) (cf.dmxTo.value : ℚ)
    (cf.physicalFrom.value.getD 0) (cf.physicalTo.value.getD 0)

/-- The saturation value `(1 << (byte_count * 8)) - 1` from
`DmxChannel._read_xml`.  A negative byte count would make Python raise; the
model truncates the exponent at zero instead (no claim reaches that case). -/
def maxDmxValue (byteCount : Int) : Int :=
  2 ^ (8 * byteCount).toNat - 1

/-- The `byte_count` selection of `DmxChannel._read_xml`: the channel's
offset slot count for an addressed channel, the element's own `dmx_from`
byte count for a virtual channel (offset `None`). -/
def bcFor (offset : Option (List Int)) (dmxFrom : DmxValue) : Int :=
  match offset with
  | none => dmxFrom.byteCount
  | some os => (os.length : Int)

/-- Fill in a ChannelSet's missing physical bounds from the enclosing
function by interpolation, marking the source as Function
(`DmxChannel._read_xml` lines 1663-1679).  `cf` must already carry its
computed `dmx_to`. -/
def fillSetPhysicals (cf : ChannelFunction) (cs : ChannelSet) : ChannelSet :=
  let cs1 :=
    if cs.physicalFrom.value = none then
      { cs with physicalFrom :=
          ⟨some (dmxToPhysicalOfFunction (cs.dmxFrom.value : ℚ) cf),
            PhysicalSource.function⟩ }
    else cs
  if cs1.physicalTo.value = none then
    { cs1 with physicalTo :=
        ⟨some (dmxToPhysicalOfFunction (cs1.dmxTo.value : ℚ) cf),
          PhysicalSource.function⟩ }
  else cs1

/-- The inner ChannelSet loop of `DmxChannel._read_xml` (lines 1640-1679):
walk the sets, already sorted by `dmx_from` descending, threading
`previous_set_dmx_from`; the first set saturates at the enclosing function's
computed `dmx_to`, each later set stops just below the previous `dmx_from`,
and missing physical bounds are interpolated. -/
def assignSetDmxTos (offset : Option (List Int)) (cf : ChannelFunction) :
    Option DmxValue → List ChannelSet → List ChannelSet
  | _, [] => []
  | none, cs :: rest =>
      let bc := bcFor offset cs.dmxFrom
      let cs1 := { cs with dmxTo := ⟨cf.dmxTo.value, bc⟩ }
      fillSetPhysicals cf cs1 ::
        assignSetDmxTos offset cf (some cs.dmxFrom) rest
  | some p, cs :: rest =>
      let cs1 := { cs with dmxTo := ⟨p.value - 1, p.byteCount⟩ }
      fillSetPhysicals cf cs1 ::
        assignSetDmxTos offset cf (some cs.dmxFrom) rest

/-- Stable descending sort by `dmx_from.value`, as performed by Python's
`sorted(..., key=lambda x: x.dmx_from.value, reverse=True)`.  Insertion
sort with the reflexive "greater or equal on keys" relation places an
element before the first element whose key it reaches, which keeps equal
keys in their original order exactly like Python's stable sort. -/
def sortFunctionsDesc (fs : List ChannelFunction) : List ChannelFunction :=
  List.insertionSort (fun a b => b.dmxFrom.value ≤ a.dmxFrom.value) fs

/-- Stable descending sort of ChannelSets by `dmx_from.value`. -/
def sortSetsDesc (cs : List ChannelSet) : List ChannelSet :=
  List.insertionSort (fun a b => b.dmxFrom.value ≤ a.dmxFrom.value) cs

/-- The outer ChannelFunction loop of `DmxChannel._read_xml` (lines
1612-1679): walk the functions in descending `dmx_from` order threading
`previous_function_dmx_from`.  In the `None` state the function saturates at
`2^(8*byte_count)-1` and, when its own `dmx_from` is zero, the tracking is
reset (the mode-master case); otherwise `dmx_to` is the previous `dmx_from`
minus one.  Each function's ChannelSets are processed by the inner loop.
The source mutates objects in place and keeps the authored list order; the
model returns the processed (descending) order, which no claim
distinguishes. -/
def assignFunctionDmxTos (offset : Option (List Int)) :
    Option DmxValue → List ChannelFunction → List ChannelFunction
  | _, [] => []
  | none, cf :: rest =>
      let bc := bcFor offset cf.dmxFrom
      let cf1 := { cf with dmxTo := ⟨maxDmxValue bc, bc⟩ }
      let sets := assignSetDmxTos offset cf1 none (sortSetsDesc cf1.channelSets)
      let cf2 := { cf1 with channelSets := sets }
      let prev := if cf.dmxFrom.value = 0 then none else some cf.dmxFrom
      cf2 :: assignFunctionDmxTos offset prev rest
  | some p, cf :: rest =>
      let cf1 := { cf with dmxTo := ⟨p.value - 1, p.byteCount⟩ }
      let sets := assignSetDmxTos offset cf1 none (sortSetsDesc cf1.channelSets)
      let cf2 := { cf1 with channelSets := sets }
      cf2 :: assignFunctionDmxTos offset (some cf.dmxFrom) rest

/-- The whole "calculate dmx_to in channel functions" block of
`DmxChannel._read_xml` for one LogicalChannel. -/
def calculateDmxTo (offset : Option (List Int))
    (fs : List ChannelFunction) : List ChannelFunction :=
  assignFunctionDmxTos offset none (sortFunctionsDesc fs)

/-- Model of `LogicalChannel` (attribute link, the enum/scalar fields the
writer emits, and the contained functions). -/
structure LogicalChannel where
  attr : NodeLink
  snap : Option String
  master : Option String
  mibFade : ℚ
  dmxChangeTimeLimit : ℚ
  channelFunctions : List ChannelFunction
  deriving Repr, DecidableEq

/-- The DMXBreak field of a channel: a plain integer break, or the
"Overwrite" sentinel produced when `int(...)` raises `ValueError`. -/
inductive DmxBreakVal where
  | int (n : Int)
  | overwrite
  deriving Repr, DecidableEq

/-- Model of `DmxChannel` (every field that channel resolution, the writer,
or a claim reads).  `overwrite` is the processing flag set by
`_get_channels_for_geometry`; `hasDefaultAttr`/`hasHighlightAttr` are the
writer provenance flags. -/
structure DmxChannel where
  dmxBreak : DmxBreakVal
  offset : Option (List Int)
  default : DmxValue
  attr : NodeLink
  highlight : Option DmxValue
  initialFunction : Option NodeLink
  geometry : Option String
  name : Option String
  overwrite : Bool
  hasDefaultAttr : Bool
  hasHighlightAttr : Bool
  logicalChannels : List LogicalChannel
  deriving Repr, DecidableEq

/-- The NoFeature attribute link used by all the synthesized fallbacks. -/
def noFeatureLink : NodeLink := ⟨"Attributes", some "NoFeature"⟩

/-- The fallback ChannelFunction synthesized by `LogicalChannel.__init__` /
`LogicalChannel._read_xml` when a LogicalChannel has no ChannelFunction
children (attribute NoFeature, everything else at the constructor
defaults). -/
def noFeatureChannelFunction : ChannelFunction :=
  { name := none
    attr := noFeatureLink
    dmxFrom := ⟨0, 1⟩
    dmxTo := ⟨0, 1⟩
    default := ⟨0, 1⟩
    physicalFrom := ⟨some 0, PhysicalSource.set⟩
    physicalTo := ⟨some 1, PhysicalSource.set⟩
    channelSets := [] }

/-- The fallback LogicalChannel synthesized by `DmxChannel.__init__` /
`DmxChannel._read_xml` when a DMXChannel element has no LogicalChannel
children.  Its constructor-built ChannelFunction carries
`name="NoFeature"`. -/
def noFeatureLogicalChannel : LogicalChannel :=
  { attr := noFeatureLink
    snap := some "No"
    master := some "None"
    mibFade := 0
    dmxChangeTimeLimit := 0
    channelFunctions := [{ noFeatureChannelFunction with name := some "NoFeature" }] }

/-- Model of the geometry tree.  All Geometry subclasses behave identically
for channel resolution (a name plus a `geometries` child list), so they
collapse into `node`; `GeometryReference` has no child list of its own,
only a target name and Break entries. -/
inductive Geometry where
  | node (name : Option String) (children : List Geometry)
  | ref (name : Option String) (target : Option String) (breaks : List BreakEntry)

mutual

/-- Preorder name search inside one geometry, the recursive worker of
`Geometries.get_geometry_by_name`.  References are matched by their own
name but never descended into (they carry no `geometries` attribute). -/
def getGeometryByNameIn (gname : Option String) : Geometry → Option Geometry
  | Geometry.node n children =>
      if n = gname then some (Geometry.node n children)
      else getGeometryByNameInList gname children
  | Geometry.ref n t bs =>
      if n = gname then some (Geometry.ref n t bs) else none

/-- First preorder match over a list of geometries. -/
def getGeometryByNameInList (gname : Option String) :
    List Geometry → Option Geometry
  | [] => none
  | g :: rest =>
      match getGeometryByNameIn gname g with
      | some r => some r
      | none => getGeometryByNameInList gname rest

end

/-- Model of `Geometries.get_geometry_by_name`: first match in preorder
over the whole forest. -/
def getGeometryByName (geoms : List Geometry) (gname : Option String) :
    Option Geometry :=
  getGeometryByNameInList gname geoms

/-- The name a geometry matches channels against in
`_get_channels_for_geometry`: the target (`geometry.geometry`) for a
GeometryReference, the geometry's own name otherwise. -/
def matchName : Geometry → Option String
  | Geometry.node n _ => n
  | Geometry.ref _ t _ => t

/-- Model of `utils._get_address_by_break`: with the overwrite flag the
last Break entry's offset is taken unconditionally (Python indexes
`dmx_breaks[-1]` and would raise on an empty list; the model returns none,
a case no theorem relies on); otherwise the first entry with a matching
break index. -/
def getAddressByBreak (breaks : List BreakEntry) (value : Int) (ow : Bool) :
    Option DmxAddress :=
  if ow then breaks.getLast?.map (fun b => b.dmxOffset)
  else (breaks.find? (fun b => b.dmxBreak == value)).map (fun b => b.dmxOffset)

/-- The per-channel body of the gather loop in
`_get_channels_for_geometry`.  For a GeometryReference, the first branch
builds a copy renamed to the reference and (for an Overwrite channel)
carrying the last Break entry's break index — but the second, unguarded
`if channel.dmx_break == "Overwrite"` branch then discards that copy and
replaces it by a fresh copy of the original with break 1 (the original's
`overwrite` flag has just been set, so the fresh copy carries
`overwrite=True`, and it keeps the target's geometry name).  For a plain
geometry only the second branch can fire. -/
def gatherTransform (g : Geometry) (c : DmxChannel) : DmxChannel :=
  match g with
  | Geometry.node _ _ =>
      if c.dmxBreak = DmxBreakVal.overwrite then
        { c with dmxBreak := DmxBreakVal.int 1 }
      else c
  | Geometry.ref n _ _ =>
      if c.dmxBreak = DmxBreakVal.overwrite then
        { c with overwrite := true, dmxBreak := DmxBreakVal.int 1 }
      else { c with geometry := n }

/-- The channel pairs gathered at a single geometry (the `for channel in
_get_channels_by_geometry(name, dmx_channels)` loop), each paired with the
geometry it was found at. -/
def gatherAtGeometry (chs : List DmxChannel) (g : Geometry) :
    List (DmxChannel × Geometry) :=
  (chs.filter fun c => c.geometry == matchName g).map (fun c =>
    (gatherTransform g c, g))

mutual

/-- The (channel, geometry) pairs collected by
`utils._get_channels_for_geometry`: gather at this geometry, then recurse
into the `geometries` children (GeometryReference has none). -/
def collectPairs (g : Geometry) (chs : List DmxChannel) :
    List (DmxChannel × Geometry) :=
  match g with
  | Geometry.node n children =>
      gatherAtGeometry chs (Geometry.node n children) ++
        collectPairsList children chs
  | Geometry.ref n t bs => gatherAtGeometry chs (Geometry.ref n t bs)

/-- Pair collection over a child list. -/
def collectPairsList (gs : List Geometry) (chs : List DmxChannel) :
    List (DmxChannel × Geometry) :=
  match gs with
  | [] => []
  | g :: rest => collectPairs g chs ++ collectPairsList rest chs

end

mutual

/-- The reference target names occurring in a geometry subtree, in
traversal order. -/
def refTargets : Geometry → List (Option String)
  | Geometry.node _ children => refTargetsList children
  | Geometry.ref _ t _ => [t]

/-- The reference target names occurring in a geometry list. -/
def refTargetsList : List Geometry → List (Option String)
  | [] => []
  | g :: rest => refTargets g ++ refTargetsList rest

end

/-- The `channel.overwrite = True` mutation that
`_get_channels_for_geometry` performs on the authored list: the flag is
raised on every Overwrite channel whose geometry is among the reference
targets of the traversed subtree; nothing else ever changes. -/
def markTargets (ts : List (Option String)) (c : DmxChannel) : DmxChannel :=
  if c.dmxBreak = DmxBreakVal.overwrite ∧ c.geometry ∈ ts then
    { c with overwrite := true }
  else c

/-- Model of `utils._get_channels_for_geometry` as a whole: the collected
(channel, geometry) pairs plus the authored list with its overwrite flags
raised.  The source appends the authored channel objects themselves (for a
plain geometry) into the returned list and mutates their `overwrite` flags
during the very same traversal, so the channels observable in the result
carry the post-traversal flags; the model therefore raises the flags first
and collects from the updated list, which yields exactly the object state
Python produces.  (Reference-gathered Overwrite copies force
`overwrite=True` themselves, and non-Overwrite channels are never
flagged, so the snapshot order matters for no other case.) -/
def getChannelsForGeometry (g : Geometry) (chs : List DmxChannel) :
    List (DmxChannel × Geometry) × List DmxChannel :=
  let chsU := chs.map (markTargets (refTargets g))
  (collectPairs g chsU, chsU)

/-- The root-geometry lookup of `utils.get_dmx_channels`, including the
single-geometry fallback for malformed files. -/
def dmxRootOf (geoms : List Geometry) (modeGeometry : Option String) :
    Option Geometry :=
  match getGeometryByName geoms modeGeometry with
  | some g => some g
  | none => if geoms.length = 1 then geoms.head? else none

/-- One step of the bucketing loop in `utils.get_dmx_channels` (lines
159-199): skip virtual channels, grow the per-break list-of-lists, shift
the offsets by the Break address of the owning reference, and store the
channel at its coarse offset slot.  Python would raise if a resolved break
were still the Overwrite string or if more than four offset slots were
present; the model skips respectively ignores those (no theorem reaches
them).  For a break or coarse offset below 1 Python would index from the
end of the list; the model clamps with `toNat` and no theorem reaches that
either. -/
def bucketChannel (acc : List (List (Option DmxChannel)))
    (pair : DmxChannel × Geometry) : List (List (Option DmxChannel)) :=
  let channel := pair.1
  let geometry := pair.2
  match channel.offset with
  | none => acc
  | some offs =>
    match channel.dmxBreak with
    | DmxBreakVal.overwrite => acc
    | DmxBreakVal.int channelBreak =>
      let acc :=
        if (acc.length : Int) < channelBreak then
          acc ++ List.replicate (channelBreak - acc.length).toNat []
        else acc
      let breakAddition :=
        match geometry with
        | Geometry.ref _ _ breaks =>
            match getAddressByBreak breaks channelBreak channel.overwrite with
            | some dmxOffset => dmxOffset.address - 1
            | none => 0
        | Geometry.node _ _ => 0
      let offs1 := offs.map (· + breakAddition)
      let offsetCoarse := offs1.getD 0 0
      let maxOffset :=
        max (max (offs1.getD 0 0) (offs1.getD 1 0))
          (max (offs1.getD 2 0) (offs1.getD 3 0))
      let idx := (channelBreak - 1).toNat
      let breakChannels := acc.getD idx []
      let breakChannels :=
        if (breakChannels.length : Int) < maxOffset then
          breakChannels ++
            List.replicate (maxOffset - breakChannels.length).toNat none
        else breakChannels
      let storedChannel := { channel with offset := some offs1 }
      let breakChannels := breakChannels.set (offsetCoarse - 1).toNat
        (some storedChannel)
      acc.set idx breakChannels

/-- Model of `utils.get_dmx_channels`: root lookup (with the
single-geometry fallback for malformed files), channel gathering, the
bucketing fold and the final removal of None placeholders.  Returns the
per-break lists plus the updated authored channel list. -/
def getDmxChannels (geoms : List Geometry) (modeGeometry : Option String)
    (chs : List DmxChannel) : List (List DmxChannel) × List DmxChannel :=
  match dmxRootOf geoms modeGeometry with
  | none => ([], chs)
  | some root =>
    let res := getChannelsForGeometry root chs
    let buckets := res.1.foldl bucketChannel []
    (buckets.map (fun bl => bl.filterMap id), res.2)

/-- Model of `utils.get_virtual_channels`: same gathering (it has no
single-geometry root fallback), keeping exactly the offset-less
channels. -/
def getVirtualChannels (geoms : List Geometry) (modeGeometry : Option String)
    (chs : List DmxChannel) : List DmxChannel × List DmxChannel :=
  match getGeometryByName geoms modeGeometry with
  | none => ([], chs)
  | some root =>
    let res := getChannelsForGeometry root chs
    ((res.1.filter fun pc => pc.1.offset == none).map (fun pc => pc.1), res.2)

/-- Model of `DmxModeBreak` entries and the derived fields of a `DmxMode`.
`channels` is the authored `_dmx_channels` list; the remaining fields are
the derived ones recomputed by `_process_dmx_channels`. -/
structure DmxModeState where
  geometry : Option String
  channels : List DmxChannel
  dmxChannels : List DmxChannel
  virtualChannels : List DmxChannel
  dmxBreaks : List (DmxBreakVal × Nat)
  dmxChannelsCount : Nat
  virtualChannelsCount : Nat
  deriving Repr, DecidableEq

/-- The `grouped_breaks` dictionary of `_process_dmx_channels`: per break
key, in first-insertion order, the concatenated offsets of its channels. -/
def groupBreaks (chs : List DmxChannel) : List (DmxBreakVal × List Int) :=
  chs.foldl (fun grouped c =>
    let offs := c.offset.getD []
    if grouped.any (fun kv => kv.1 == c.dmxBreak) then
      grouped.map (fun kv =>
        if kv.1 == c.dmxBreak then (kv.1, kv.2 ++ offs) else kv)
    else grouped ++ [(c.dmxBreak, offs)]) []

/-- Model of `DmxMode._process_dmx_channels`: resolve the per-break lists,
flatten them, collect the virtual channels, and recompute `dmx_breaks` (one
entry per break with the number of distinct offsets) and both counts.  The
authored list is threaded because gathering sets overwrite flags. -/
def processDmxChannels (geoms : List Geometry) (st : DmxModeState) :
    DmxModeState :=
  let res := getDmxChannels geoms st.geometry st.channels
  let flattened := res.1.flatten
  let virt := getVirtualChannels geoms st.geometry res.2
  let breaks := (groupBreaks flattened).map (fun kv => (kv.1, kv.2.dedup.length))
  { st with
    channels := virt.2
    dmxChannels := flattened
    virtualChannels := virt.1
    dmxBreaks := breaks
    dmxChannelsCount := (breaks.map (fun kv => kv.2)).sum
    virtualChannelsCount := virt.1.length }

/-- The filler channel appended by `DmxMode._check_for_missing_channels`:
`DmxChannel(name="NoFeature", offset=[i], geometry=self.geometry,
attribute=NodeLink("Attributes", "NoFeature"))` with all remaining
constructor defaults. -/
def fillerChannel (modeGeometry : Option String) (i : Int) : DmxChannel :=
  { dmxBreak := DmxBreakVal.int 1
    offset := some [i]
    default := ⟨0, 1⟩
    attr := noFeatureLink
    highlight := none
    initialFunction := none
    geometry := modeGeometry
    name := some "NoFeature"
    overwrite := false
    hasDefaultAttr := true
    hasHighlightAttr := false
    logicalChannels := [noFeatureLogicalChannel] }

/-- The `highest_offset` scan of `_check_for_missing_channels`, quirk
included: the max of the offsets of a channel is only taken when its coarse
offset beats the running value. -/
def highestOffset (chs : List DmxChannel) : Int :=
  chs.foldl (fun h c =>
    match c.offset with
    | none => h
    | some offs =>
        if offs.headD 0 > h then offs.foldl max (offs.headD 0) else h) 0

/-- Whether some resolved channel covers address `i` (the `if i in
channel.offset` scan). -/
def addressCovered (chs : List DmxChannel) (i : Int) : Bool :=
  chs.any fun c =>
    match c.offset with
    | none => false
    | some offs => offs.contains i

/-- Model of `DmxMode._check_for_missing_channels`: when the flattened
channel count disagrees with the highest observed offset, append one
NoFeature filler per uncovered address in `1..highest` to the authored
list; returns whether anything was appended. -/
def checkForMissingChannels (st : DmxModeState) : Bool × DmxModeState :=
  let highest := highestOffset st.dmxChannels
  if (st.dmxChannels.length : Int) ≠ highest then
    let missing := ((List.range highest.toNat).map (fun (k : Nat) => (k : Int) + 1)).filter
      (fun i => ¬ addressCovered st.dmxChannels i)
    let fillers := missing.map (fillerChannel st.geometry)
    (¬ missing.isEmpty, { st with channels := st.channels ++ fillers })
  else (false, st)

/-- The resolution portion of `DmxMode._read_xml` (lines 1379-1381):
process once and, exactly when fillers were appended, process a second
time.  This is the bounded two-pass fixed point of the specification. -/
def readXmlResolve (geoms : List Geometry) (st : DmxModeState) : DmxModeState :=
  let st1 := processDmxChannels geoms st
  let check := checkForMissingChannels st1
  if check.1 then processDmxChannels geoms check.2 else st1

/-- Minimal model of an `xml.etree.ElementTree.Element`: tag, attribute
dictionary (unique keys, as produced by an XML parser) and child elements.
Text and tail are not modelled; the description.xml elements the claims
touch carry none. -/
inductive Xml where
  | elem (tag : String) (attrib : List (String × String)) (children : List Xml)

/-- Tag of an element. -/
def Xml.tag : Xml → String
  | Xml.elem t _ _ => t

/-- Attribute dictionary of an element. -/
def Xml.attrib : Xml → List (String × String)
  | Xml.elem _ a _ => a

/-- Children of an element. -/
def Xml.children : Xml → List Xml
  | Xml.elem _ _ c => c

/-- Model of `element.attrib.get(key)`. -/
def Xml.get (e : Xml) (k : String) : Option String :=
  (e.attrib.find? (fun kv => kv.1 == k)).map (fun kv => kv.2)

/-- Model of `element.attrib.get(key, default)`. -/
def Xml.getD (e : Xml) (k : String) (dflt : String) : String :=
  (e.get k).getD dflt

/-- Model of `element.findall(tag)`. -/
def Xml.findAll (e : Xml) (t : String) : List Xml :=
  e.children.filter (fun c => c.tag == t)

/-- Model of Python dict equality for attribute dictionaries (order
independent; both sides have unique keys). -/
def attrsEq (a b : List (String × String)) : Bool :=
  (a.all fun kv => (b.find? (fun kv2 => kv2.1 == kv.1)).map Prod.snd == some kv.2) &&
  (b.all fun kv => (a.find? (fun kv2 => kv2.1 == kv.1)).map Prod.snd == some kv.2)

mutual

/-- Model of the element-by-element structural equality used for round-trip
comparison (tag, attribute dictionary, child count, children pairwise; the
text/tail comparisons are vacuous for attribute-only GDTF elements). -/
def structEq : Xml → Xml → Bool
  | Xml.elem t1 a1 c1, Xml.elem t2 a2 c2 =>
      t1 == t2 && attrsEq a1 a2 && c1.length == c2.length && structEqList c1 c2

/-- Pairwise structural equality of child lists. -/
def structEqList : List Xml → List Xml → Bool
  | [], _ => true
  | _ :: _, [] => true
  | x :: xs, y :: ys => structEq x y && structEqList xs ys

end

/-- Best-effort model of Python `float()` on the decimal literals found in
GDTF attributes (optional sign, optional fractional part).  Python raises
on malformed input; the model returns 0 there, and no theorem depends on
such input. -/
def parseDecimal (s : String) : ℚ :=
  let sign : ℚ := if s.startsWith "-" then -1 else 1
  let body := if s.startsWith "-" ∨ s.startsWith "+" then s.drop 1 else s
  match body.splitOn "." with
  | [i] => sign * ((i.toNat?.getD 0 : Int) : ℚ)
  | [i, f] =>
      sign * (((i.toNat?.getD 0 : Int) : ℚ) +
        ((f.toNat?.getD 0 : Int) : ℚ) / ((10 : ℚ) ^ f.length))
  | _ => 0

/-- Stand-in for Python `str(float)`; no claim inspects the rendering of a
physical value, only whether the attribute is present. -/
def pyFloatStr (q : ℚ) : String :=
  toString q.num ++ "e-prec/" ++ toString q.den

/-- Model of `_dmx_value_str` / the f-string "value/byte_count". -/
def dmxValueStr (v : DmxValue) : String :=
  toString v.value ++ "/" ++ toString v.byteCount

/-- Model of `str(NodeLink)`: always the raw `str_link`, with Python
rendering `None` as the string "None". -/
def linkStr (nl : NodeLink) : String :=
  match nl.strLink with
  | some s => s
  | none => "None"

/-- Model of `str(None | str)` for optional strings. -/
def pyOptStr (o : Option String) : String :=
  o.getD "None"

/-- Model of `ChannelSet._read_xml` (lines 2123-2132): parse `DMXFrom`
(defaulting to 0/1), pre-set `dmx_to` to `dmx_from + 1` (it is recomputed
later by the enclosing channel), optional physicals, clamped
WheelSlotIndex, and record the authored attribute keys. -/
def readChannelSet (e : Xml) : ChannelSet :=
  let dmxFrom := DmxValue.parse (e.getD "DMXFrom" "0/1")
  { name := e.get "Name"
    dmxFrom := dmxFrom
    dmxTo := { dmxFrom with value := dmxFrom.value + 1 }
    physicalFrom := ⟨(e.get "PhysicalFrom").map parseDecimal, PhysicalSource.set⟩
    physicalTo := ⟨(e.get "PhysicalTo").map parseDecimal, PhysicalSource.set⟩
    wheelSlotIndex := max 0 (getInt (e.getD "WheelSlotIndex" "0") 0)
    attrKeys := e.attrib.map (fun kv => kv.1) }

/-- Model of `ChannelSet.to_xml` (lines 2150-2166): Name when present,
DMXFrom and WheelSlotIndex unconditionally, physicals under the provenance
condition recorded at parse time. -/
def writeChannelSet (cs : ChannelSet) : Xml :=
  let nameAttrs := match cs.name with
    | some n => [("Name", n)]
    | none => []
  let physFrom := match cs.physicalFrom.value with
    | some v =>
        if cs.attrKeys.contains "PhysicalFrom" ∨ cs.attrKeys.isEmpty then
          [("PhysicalFrom", pyFloatStr v)]
        else []
    | none => []
  let physTo := match cs.physicalTo.value with
    | some v =>
        if cs.attrKeys.contains "PhysicalTo" ∨ cs.attrKeys.isEmpty then
          [("PhysicalTo", pyFloatStr v)]
        else []
    | none => []
  Xml.elem "ChannelSet"
    (nameAttrs ++ [("DMXFrom", dmxValueStr cs.dmxFrom)] ++ physFrom ++ physTo ++
      [("WheelSlotIndex", toString cs.wheelSlotIndex)])
    []

/-- Model of the Enum constructor for `Snap` (permitted Yes/No/On/Off,
default "No"). -/
def snapParse (o : Option String) : Option String :=
  match o with
  | some v => if v ∈ ["Yes", "No", "On", "Off"] then some v else some "No"
  | none => some "No"

/-- Model of the Enum constructor for `Master` (permitted None/Grand/Group,
default "None"). -/
def masterParse (o : Option String) : Option String :=
  match o with
  | some v => if v ∈ ["None", "Grand", "Group"] then some v else some "None"
  | none => some "None"

/-- Model of `ChannelFunction._read_xml` restricted to the modelled fields:
attribute defaulting to NoFeature, `dmx_from` (default 0/1) with `dmx_to`
pre-set to `dmx_from + 1`, default value, physicals defaulting to 0 and 1,
and the ChannelSet children. -/
def readChannelFunction (e : Xml) : ChannelFunction :=
  let dmxFrom := DmxValue.parse (e.getD "DMXFrom" "0/1")
  { name := e.get "Name"
    attr := ⟨"Attributes", some (e.getD "Attribute" "NoFeature")⟩
    dmxFrom := dmxFrom
    dmxTo := { dmxFrom with value := dmxFrom.value + 1 }
    default := DmxValue.parse (e.getD "Default" "0/1")
    physicalFrom := ⟨some (parseDecimal (e.getD "PhysicalFrom" "0")), PhysicalSource.set⟩
    physicalTo := ⟨some (parseDecimal (e.getD "PhysicalTo" "1")), PhysicalSource.set⟩
    channelSets := (e.findAll "ChannelSet").map readChannelSet }

/-- Model of `LogicalChannel._read_xml` (lines 1777-1794): parse the
fields, fall back to a synthesized NoFeature ChannelFunction when the
element has no ChannelFunction children, then give every unnamed function
the name "attribute index" (1-based). -/
def readLogicalChannel (e : Xml) : LogicalChannel :=
  let parsed := (e.findAll "ChannelFunction").map readChannelFunction
  let fns := if parsed.isEmpty then [noFeatureChannelFunction] else parsed
  let named := fns.enum.map fun p =>
    if p.2.name = none then
      { p.2 with name := some (linkStr p.2.attr ++ " " ++ toString (p.1 + 1)) }
    else p.2
  { attr := ⟨"Attributes", e.get "Attribute"⟩
    snap := snapParse (e.get "Snap")
    master := masterParse (e.get "Master")
    mibFade := parseDecimal (e.getD "MibFade" "0")
    dmxChangeTimeLimit := parseDecimal (e.getD "DMXChangeTimeLimit" "0")
    channelFunctions := named }

/-- The InitialFunction scan of `DmxChannel._read_xml` (lines 1597-1610):
walk every LogicalChannel and ChannelFunction, and wherever the dotted path
"channelname.attribute.functionname" equals the initial-function link, take
that function default and that logical channel attribute (the last match
wins, as in the sequential Python loop). -/
def applyInitialFunction (chName : Option String) (ifLink : String)
    (lcs : List LogicalChannel) (dfltAttr : DmxValue × NodeLink) :
    DmxValue × NodeLink :=
  lcs.foldl (fun acc lc =>
    let lcName := pyOptStr chName ++ "." ++ linkStr lc.attr
    lc.channelFunctions.foldl (fun acc2 cf =>
      if lcName ++ "." ++ pyOptStr cf.name == ifLink then (cf.default, lc.attr)
      else acc2) acc) dfltAttr

/-- Model of `DmxChannel._read_xml` (lines 1552-1679): break sentinel
parsing, offset parsing (None/"None"/"" mean virtual; Python would raise on
non-integer slot text, the model falls back to 0 there), default and
highlight provenance, the LogicalChannel fallback, channel naming, the
InitialFunction scan, and the dmx_to calculation for every logical
channel. -/
def readDmxChannel (e : Xml) : DmxChannel :=
  let dmxBreak := match (e.getD "DMXBreak" "1").toInt? with
    | some n => DmxBreakVal.int n
    | none => DmxBreakVal.overwrite
  let offset := match e.get "Offset" with
    | none => none
    | some o =>
        if o = "None" ∨ o = "" then none
        else some ((o.splitOn ",").map (fun t => getInt t 0))
  let dfl := match e.get "Default" with
    | some d => (DmxValue.parse d, true)
    | none => ((⟨0, 1⟩ : DmxValue), false)
  let highlightRaw := e.get "Highlight"
  let highlight := match highlightRaw with
    | some h => if h.toLower ≠ "none" then some (DmxValue.parse h) else none
    | none => none
  let geometry := e.get "Geometry"
  let parsedLcs := (e.findAll "LogicalChannel").map readLogicalChannel
  let lcs := if parsedLcs.isEmpty then [noFeatureLogicalChannel] else parsedLcs
  let lc0 := lcs.headD noFeatureLogicalChannel
  let chName := some (pyOptStr geometry ++ "_" ++ linkStr lc0.attr)
  let initialFunction := match e.get "InitialFunction" with
    | some s => if s ≠ "" then some (⟨"", some s⟩ : NodeLink) else none
    | none => none
  let dfltAttr := match initialFunction with
    | some nl => applyInitialFunction chName (linkStr nl) lcs (dfl.1, lc0.attr)
    | none => (dfl.1, lc0.attr)
  { dmxBreak := dmxBreak
    offset := offset
    default := dfltAttr.1
    attr := dfltAttr.2
    highlight := highlight
    initialFunction := initialFunction
    geometry := geometry
    name := chName
    overwrite := false
    hasDefaultAttr := dfl.2
    hasHighlightAttr := highlightRaw.isSome
    logicalChannels := lcs.map (fun lc =>
      { lc with channelFunctions := calculateDmxTo offset lc.channelFunctions }) }

/-- Model of one Annex-B attribute template row (the fields
`_build_attribute_from_template` substitutes into; subphysical units and
colors are irrelevant to the claims). -/
structure AnnexTemplate where
  pretty : Option String
  activationGroup : Option String
  feature : Option String
  mainAttribute : Option String
  deriving Repr, DecidableEq

/-- Model of `_apply_placeholders`: empty or missing values pass through;
otherwise every "(key)" and "(KEY)" is replaced by the captured digits. -/
def applyPlaceholders (groups : List (String × String))
    (value : Option String) : Option String :=
  match value with
  | none => none
  | some v =>
      if v = "" then some v
      else some (groups.foldl (fun r kv =>
        (r.replace ("(" ++ kv.1 ++ ")") kv.2).replace
          ("(" ++ kv.1.toUpper ++ ")") kv.2) v)

/-- A template matcher abstracts `_match_attribute_template` over the
loaded Annex-B table: exact hit or first wildcard whose compiled pattern
matches, together with the captured digit groups.  The regex engine itself
is outside the embedding, so the matcher is a parameter of every theorem
about the regenerator. -/
def TemplateMatcher : Type :=
  String → Option (AnnexTemplate × List (String × String))

/-- The main-attribute name a matched template contributes for one
attribute name, when it is non-empty after substitution (Python checks the
raw and the substituted value for truthiness). -/
def mainOf (matcher : TemplateMatcher) (x : String) : Option String :=
  match matcher x with
  | some tg =>
      match applyPlaceholders tg.2 tg.1.mainAttribute with
      | some m => if m ≠ "" then some m else none
      | none => none
  | none => none

/-- Model of the worklist of `_expand_attribute_dependencies`: pop the
front, record it, and enqueue the substituted main attribute when it is
new.  The Python `while queue` loop becomes fuel-indexed recursion; `none`
means the fuel ran out before the queue drained. -/
def expandWorklist (matcher : TemplateMatcher) :
    Nat → List String → List String → List String → Option (List String)
  | _, [], _, ordered => some ordered
  | 0, _ :: _, _, _ => none
  | fuel + 1, current :: rest, seen, ordered =>
      let step : List String × List String :=
        match mainOf matcher current with
        | some ma =>
            if ma ∉ seen then (rest ++ [ma], ma :: seen)
            else (rest, seen)
        | none => (rest, seen)
      expandWorklist matcher fuel step.1 step.2 (ordered ++ [current])

/-- Model of `_expand_attribute_dependencies`: queue and seen-set start as
the collected names, ordered starts empty. -/
def expandAttributeDependencies (matcher : TemplateMatcher) (fuel : Nat)
    (names : List String) : Option (List String) :=
  expandWorklist matcher fuel names names []

/-- First-use-order deduplicating accumulation of one attribute link
(`_collect_attribute_names` inner step; empty and missing links are
skipped). -/
def addName (acc : List String) (o : Option String) : List String :=
  match o with
  | some n => if n ≠ "" ∧ ¬ acc.contains n then acc ++ [n] else acc
  | none => acc

/-- Model of `_collect_attribute_names`: every logical-channel and
channel-function attribute of every mode, first-use order,
deduplicated. -/
def collectAttributeNames (modes : List DmxModeState) : List String :=
  modes.foldl (fun acc mode =>
    mode.channels.foldl (fun acc2 c =>
      c.logicalChannels.foldl (fun acc3 lc =>
        lc.channelFunctions.foldl (fun acc4 cf => addName acc4 cf.attr.strLink)
          (addName acc3 lc.attr.strLink)) acc2) acc) []

/-- Model of a generated `Attribute` entry (name plus the placeholder
substituted links; physical units and colors do not matter to the
claims). -/
structure GdtfAttribute where
  name : String
  pretty : Option String
  activationGroup : Option String
  feature : Option String
  mainAttribute : Option String
  deriving Repr, DecidableEq

/-- Model of `_build_attribute_from_template`. -/
def buildAttributeFromTemplate (attrName : String) (t : AnnexTemplate)
    (groups : List (String × String)) : GdtfAttribute :=
  { name := attrName
    pretty := applyPlaceholders groups t.pretty
    activationGroup := applyPlaceholders groups t.activationGroup
    feature := applyPlaceholders groups t.feature
    mainAttribute := applyPlaceholders groups t.mainAttribute }

/-- Model of `_build_fallback_attribute` (feature group Control.Control,
nothing else). -/
def buildFallbackAttribute (attrName : String) : GdtfAttribute :=
  { name := attrName
    pretty := some attrName
    activationGroup := none
    feature := some "Control.Control"
    mainAttribute := none }

/-- One entry of the materialization loop of
`regenerate_attribute_definitions`: template hit, else verbatim custom
reuse, else the synthesized fallback. -/
def materializeAttribute (matcher : TemplateMatcher)
    (custom : List GdtfAttribute) (n : String) : GdtfAttribute :=
  match matcher n with
  | some tg => buildAttributeFromTemplate n tg.1 tg.2
  | none =>
      match custom.find? (fun a => a.name == n) with
      | some a => a
      | none => buildFallbackAttribute n

/-- Model of `regenerate_attribute_definitions` restricted to the
attributes list and the missing-attributes diagnostic (the activation and
feature group assembly reads the same data and adds nothing the claims
test): collect, expand dependencies, then materialize exactly one entry
per expanded name. -/
def regenerateAttributeDefinitions (matcher : TemplateMatcher) (fuel : Nat)
    (modes : List DmxModeState) (custom : List GdtfAttribute) :
    Option (List GdtfAttribute × List String) :=
  match expandAttributeDependencies matcher fuel (collectAttributeNames modes) with
  | none => none
  | some names =>
      some (names.map (materializeAttribute matcher custom),
        names.filter (fun n =>
          matcher n = none ∧ custom.find? (fun a => a.name == n) = none))

/-! Claim-side predicates and proof scaffolding. -/

/-- How many channels of the flattened list cover DMX address `a` of break
`b` (a channel covers every entry of its offset slot list). -/
def coverCount (chs : List DmxChannel) (b : Int) (a : Int) : Nat :=
  (chs.filter (fun c =>
    c.dmxBreak == DmxBreakVal.int b && (c.offset.getD []).contains a)).length

/-- The distinct integer breaks appearing in a flattened channel list. -/
def breaksOf (chs : List DmxChannel) : List Int :=
  (chs.filterMap (fun c =>
    match c.dmxBreak with
    | DmxBreakVal.int n => some n
    | DmxBreakVal.overwrite => none)).dedup

/-- The maximum observed offset of break `b` in a flattened channel list
(0 when the break has no channels). -/
def maxOffsetOfBreak (chs : List DmxChannel) (b : Int) : Int :=
  chs.foldl (fun m c =>
    if c.dmxBreak == DmxBreakVal.int b then (c.offset.getD []).foldl max m
    else m) 0

/-- The address-space property of claim C1: in every break of the
flattened list, every address between 1 and the maximum observed offset is
covered by exactly one channel (no duplicates, no gaps). -/
def addressSpaceOk (chs : List DmxChannel) : Bool :=
  (breaksOf chs).all fun b =>
    ((List.range (maxOffsetOfBreak chs b).toNat).map (fun (k : Nat) => (k : Int) + 1)).all
      fun a => coverCount chs b a == 1

/-- The boundary property of claim C2 on an ascending function list:
`dmx_to + 1 = next dmx_from` for every adjacent pair, and the last (highest
`dmx_from`) function saturates at `2^(8*byte_count)-1`. -/
def ascBoundaryChain (bcOf : ChannelFunction → Int) :
    List ChannelFunction → Bool
  | [] => true
  | [f] => f.dmxTo.value == maxDmxValue (bcOf f)
  | f :: g :: rest =>
      f.dmxTo.value + 1 == g.dmxFrom.value && ascBoundaryChain bcOf (g :: rest)

/-- Claim-side ascending stable sort by `dmx_from.value`. -/
def sortFunctionsAsc (fs : List ChannelFunction) : List ChannelFunction :=
  List.insertionSort (fun a b => a.dmxFrom.value ≤ b.dmxFrom.value) fs

mutual

/-- Whether a geometry subtree contains no GeometryReference. -/
def refFree : Geometry → Bool
  | Geometry.node _ children => refFreeList children
  | Geometry.ref _ _ _ => false

/-- Whether a geometry list contains no GeometryReference. -/
def refFreeList : List Geometry → Bool
  | [] => true
  | g :: rest => refFree g && refFreeList rest

end

/-! Concrete instances used by counterexamples and witnesses. -/

/-- A plain addressed channel used by the concrete scenarios. -/
def plainChannel (g : String) (b : Int) (off : List Int) : DmxChannel :=
  { dmxBreak := DmxBreakVal.int b
    offset := some off
    default := ⟨0, 1⟩
    attr := ⟨"Attributes", some "Dimmer"⟩
    highlight := none
    initialFunction := none
    geometry := some g
    name := none
    overwrite := false
    hasDefaultAttr := false
    hasHighlightAttr := false
    logicalChannels := [] }

/-- A fresh mode state with the given root-geometry link and authored
channels (all derived fields empty, as before `_read_xml` resolution). -/
def freshMode (g : Option String) (chs : List DmxChannel) : DmxModeState :=
  { geometry := g
    channels := chs
    dmxChannels := []
    virtualChannels := []
    dmxBreaks := []
    dmxChannelsCount := 0
    virtualChannelsCount := 0 }

/-- C1 counterexample input: one channel at break 1 address 1 and one at
break 2 address 3, mounted on a plain root geometry. -/
def c1State : DmxModeState :=
  freshMode (some "Base") [plainChannel "Base" 1 [1], plainChannel "Base" 2 [3]]

/-- The geometry forest of the single-root concrete scenarios. -/
def baseGeoms : List Geometry := [Geometry.node (some "Base") []]

/-- C2 input: a channel function with the given authored `dmx_from` and
otherwise default fields. -/
def functionWithDmxFrom (v : Int) : ChannelFunction :=
  { noFeatureChannelFunction with name := some "f", dmxFrom := ⟨v, 1⟩ }

/-- C4 scenario input: four single-slot channels at offsets 1, 2, 3 and 5
of break 1 (highest authored offset 5, address 4 missing). -/
def c4State : DmxModeState :=
  freshMode (some "Base")
    [plainChannel "Base" 1 [1], plainChannel "Base" 1 [2],
      plainChannel "Base" 1 [3], plainChannel "Base" 1 [5]]

/-- C5 scenario channel: authored at break 1, offset slots `os`, mounted on
the referenced subtree `target`. -/
def c5Channel (target : String) (os : List Int) : DmxChannel :=
  plainChannel target 1 os

/-- C5 scenario geometry forest: a root `Base` containing one
GeometryReference named `Head1` to subtree `target`, declaring one Break
entry with break index 1 and DMX address `a`. -/
def c5Geoms (target : String) (a : Int) : List Geometry :=
  [Geometry.node (some "Base")
    [Geometry.ref (some "Head1") (some target) [⟨⟨1, a⟩, 1⟩]]]

/-- C6 failing input, channel part: an Overwrite channel mounted on
subtree `Head`. -/
def c6OverwriteChannel : DmxChannel :=
  { plainChannel "Head" 1 [1] with dmxBreak := DmxBreakVal.overwrite }

/-- C6 failing input, geometry part: a GeometryReference to `Head` whose
last (and only) Break entry declares dmx_break 2. -/
def c6RefGeometry : Geometry :=
  Geometry.ref (some "Head1") (some "Head") [⟨⟨1, 1⟩, 2⟩]

/-- C7 counterexample: a ChannelSet element with no authored attributes. -/
def c7SourceElement : Xml := Xml.elem "ChannelSet" [] []

/-- C7 witness: a ChannelSet element that authors the two always-emitted
attributes in canonical form. -/
def c7WitnessElement : Xml :=
  Xml.elem "ChannelSet" [("DMXFrom", "0/1"), ("WheelSlotIndex", "0")] []

/-- C9 witness matcher: a two-row table in which `Gobo1SelectShake`
declares main attribute `Gobo1` and `Gobo1` declares none. -/
def c9Matcher : TemplateMatcher :=
  fun n =>
    if n = "Gobo1SelectShake" then
      some (⟨some "Select Shake", none, some "Gobo.Gobo", some "Gobo1"⟩, [])
    else if n = "Gobo1" then
      some (⟨some "Gobo", none, some "Gobo.Gobo", none⟩, [])
    else none

/-- C9 witness mode: one channel whose only logical channel uses
`Gobo1SelectShake`. -/
def c9Mode : DmxModeState :=
  freshMode (some "Base")
    [{ plainChannel "Base" 1 [1] with
        logicalChannels := [{ noFeatureLogicalChannel with
          attr := ⟨"Attributes", some "Gobo1SelectShake"⟩ }] }]

/-- C10 witness element: a DMXChannel element with no children at all. -/
def c10Element : Xml := Xml.elem "DMXChannel" [] []

/-- The name field shared by both geometry constructors. -/
def geomName : Geometry → Option String
  | Geometry.node n _ => n
  | Geometry.ref n _ _ => n

/-- The coarse (first) offset slot of a channel, 0 when absent. -/
def coarseOf (c : DmxChannel) : Int :=
  (c.offset.getD []).headD 0

/-- Slot discipline of a single-break bucket list, shifted by `k`: the
channel stored at slot `j` (if any) is a break-1 channel whose single
resolved offset is exactly the address `j + k + 1`. -/
def SlotsOkFrom (k : Nat) (bl : List (Option DmxChannel)) : Prop :=
  ∀ (j : Nat) (c : DmxChannel), bl[j]? = some (some c) →
    c.dmxBreak = DmxBreakVal.int 1 ∧ c.offset = some [(j : Int) + (k : Int) + 1]

/-- Invariant of the bucketing fold for single-break input: the
accumulator is empty or a single well-formed break-1 slot list. -/
def BucketInv (acc : List (List (Option DmxChannel))) : Prop :=
  acc = [] ∨ ∃ bl, acc = [bl] ∧ SlotsOkFrom 0 bl

/-- Address `a` holds a channel in the break-1 slot list of the
accumulator. -/
def OccAt (acc : List (List (Option DmxChannel))) (a : Int) : Prop :=
  1 ≤ a ∧ ∃ c, (acc.headD [])[(a - 1).toNat]? = some (some c)

/-- Single-break single-slot shape of a gathered pair: a break-1 channel
with one offset slot `a ≥ 1`, found at a plain geometry node. -/
def PairShape (p : DmxChannel × Geometry) : Prop :=
  p.1.dmxBreak = DmxBreakVal.int 1 ∧ (∃ a, 1 ≤ a ∧ p.1.offset = some [a]) ∧
    ∃ n cc, p.2 = Geometry.node n cc

/-- Single-break single-slot channel shape (the hypothesis of the amended
claim C1): a break-1 channel with one offset slot holding an address of at
least 1. -/
def ChanShape (c : DmxChannel) : Prop :=
  c.dmxBreak = DmxBreakVal.int 1 ∧ ∃ a : Int, 1 ≤ a ∧ c.offset = some [a]

/-- Maximum of the coarse offsets of a channel list, folded from `m`. -/
def maxCoarseFrom (m : Int) (L : List DmxChannel) : Int :=
  L.foldl (fun h c => max h (coarseOf c)) m

/-- The boundary property of claim C2 as a proposition over the
ascending-sorted function list: adjacent functions meet at
`dmx_to + 1 = dmx_from`, and the last one saturates at
`2^(8*byte_count)-1`. -/
def ascBoundarySpec (bcOf : ChannelFunction → Int)
    (L : List ChannelFunction) : Prop :=
  List.Chain' (fun a b => a.dmxTo.value + 1 = b.dmxFrom.value) L ∧
  ∀ f, L.getLast? = some f → f.dmxTo.value = maxDmxValue (bcOf f)

instance : IsTotal ChannelFunction
    (fun a b => b.dmxFrom.value ≤ a.dmxFrom.value) :=
  ⟨fun a b => (le_total b.dmxFrom.value a.dmxFrom.value).imp id id⟩

instance : IsTrans ChannelFunction
    (fun a b => b.dmxFrom.value ≤ a.dmxFrom.value) :=
  ⟨fun _ _ _ h1 h2 => le_trans h2 h1⟩

/-- The function both authored entries of the C2 counterexample resolve to:
`dmx_from` 0 and saturated `dmx_to` 255. -/
def c2Resolved : ChannelFunction :=
  { functionWithDmxFrom 0 with dmxTo := ⟨255, 1⟩ }

/-- The reference targets below an optional root geometry. -/
def targetsOfRoot : Option Geometry → List (Option String)
  | none => []
  | some g => refTargets g

/-- C1 amended-claim witness input: one break-1 channel at address 2.  The
first pass resolves one channel against highest offset 2, so a NoFeature
filler for address 1 is appended and the second pass yields a gap-free
break. -/
def c1AmendedState : DmxModeState :=
  freshMode (some "Base") [plainChannel "Base" 1 [2]]

/-- The concrete output of `regenerate_attribute_definitions` on the C9
witness input (checked by `rfl` in the witness): the directly used
attribute, the NoFeature fallback of the filler-free channel, and the
dependency-closed `Gobo1`. -/
def c9Result : List GdtfAttribute × List String :=
  ([⟨"Gobo1SelectShake", some "Select Shake", none, some "Gobo.Gobo",
      some "Gobo1"⟩,
    ⟨"NoFeature", some "NoFeature", none, some "Control.Control", none⟩,
    ⟨"Gobo1", some "Gobo", none, some "Gobo.Gobo", none⟩],
   ["NoFeature"])

end Pygdtf

/-! Helper lemmas. -/

namespace Pygdtf

theorem assign_map_dmxFromVal (offset : Option (List Int)) :
    ∀ (p : Option DmxValue) (l : List ChannelFunction),
      (assignFunctionDmxTos offset p l).map (fun f => f.dmxFrom.value) =
        l.map (fun f => f.dmxFrom.value)
  | _, [] => by simp [assignFunctionDmxTos]
  | none, f :: rest => by
      simp [assignFunctionDmxTos, assign_map_dmxFromVal offset _ rest]
  | some p, f :: rest => by
      simp [assignFunctionDmxTos, assign_map_dmxFromVal offset _ rest]

theorem assign_some_headTo (offset : Option (List Int)) (q : DmxValue)
    (g : ChannelFunction) (rest : List ChannelFunction) :
    ∀ y ∈ (assignFunctionDmxTos offset (some q) (g :: rest)).head?,
      y.dmxTo.value = q.value - 1 := by
  simp [assignFunctionDmxTos]

theorem assign_some_chain (offset : Option (List Int)) :
    ∀ (l : List ChannelFunction) (q : DmxValue),
      List.Chain' (fun a b => b.dmxTo.value + 1 = a.dmxFrom.value)
        (assignFunctionDmxTos offset (some q) l)
  | [], _ => by simp [assignFunctionDmxTos]
  | f :: rest, q => by
      simp only [assignFunctionDmxTos]
      rw [List.chain'_cons']
      refine ⟨?_, assign_some_chain offset rest f.dmxFrom⟩
      intro y hy
      cases rest with
      | nil => simp [assignFunctionDmxTos] at hy
      | cons g rest2 =>
        have := assign_some_headTo offset f.dmxFrom g rest2 y hy
        simp only []
        omega

theorem assign_none_spec (offset : Option (List Int)) (l : List ChannelFunction)
    (hstrict : l.Pairwise (fun a b => b.dmxFrom.value < a.dmxFrom.value))
    (hnn : ∀ f ∈ l, 0 ≤ f.dmxFrom.value) :
    ascBoundarySpec (fun f => bcFor offset f.dmxFrom)
      ((assignFunctionDmxTos offset none l).reverse) := by
  cases l with
  | nil =>
      constructor
      · simp [assignFunctionDmxTos]
      · simp [assignFunctionDmxTos]
  | cons f rest =>
    by_cases h0 : f.dmxFrom.value = 0
    · have hrest : rest = [] := by
        cases rest with
        | nil => rfl
        | cons g r2 =>
          have hlt := (List.pairwise_cons.mp hstrict).1 g (by simp)
          have hge := hnn g (by simp)
          omega
      subst hrest
      constructor
      · simp [assignFunctionDmxTos]
      · intro fl hfl
        simp [assignFunctionDmxTos] at hfl
        subst hfl
        simp [assignFunctionDmxTos]
    · obtain ⟨f1, hout, hto, hfrom⟩ :
          ∃ f1, assignFunctionDmxTos offset none (f :: rest) =
            f1 :: assignFunctionDmxTos offset (some f.dmxFrom) rest ∧
            f1.dmxTo.value = maxDmxValue (bcFor offset f.dmxFrom) ∧
            f1.dmxFrom = f.dmxFrom := by
        refine ⟨(assignFunctionDmxTos offset none (f :: rest)).headD
          noFeatureChannelFunction, ?_, ?_, ?_⟩ <;>
          simp [assignFunctionDmxTos, h0]
      constructor
      · rw [List.chain'_reverse]
        rw [hout]
        rw [List.chain'_cons']
        refine ⟨?_, assign_some_chain offset rest f.dmxFrom⟩
        intro y hy
        cases rest with
        | nil => simp [assignFunctionDmxTos] at hy
        | cons g rest2 =>
          have := assign_some_headTo offset f.dmxFrom g rest2 y hy
          show y.dmxTo.value + 1 = f1.dmxFrom.value
          rw [hfrom]
          omega
      · intro fl hfl
        rw [List.getLast?_eq_head?_reverse, List.reverse_reverse, hout] at hfl
        simp at hfl
        subst hfl
        show f1.dmxTo.value = maxDmxValue (bcFor offset f1.dmxFrom)
        rw [hto, hfrom]

theorem orderedInsert_of_not_rel {r : ChannelFunction → ChannelFunction → Prop}
    [DecidableRel r] (a : ChannelFunction) :
    ∀ (l : List ChannelFunction), (∀ b ∈ l, ¬ r a b) →
      List.orderedInsert r a l = l ++ [a]
  | [], _ => rfl
  | b :: l, h => by
      have hb : ¬ r a b := h b (by simp)
      simp only [List.orderedInsert, if_neg hb]
      rw [orderedInsert_of_not_rel a l (fun c hc => h c (by simp [hc]))]
      rfl

theorem sortAsc_of_strict_desc :
    ∀ (l : List ChannelFunction),
      l.Pairwise (fun a b => b.dmxFrom.value < a.dmxFrom.value) →
      sortFunctionsAsc l = l.reverse
  | [], _ => rfl
  | x :: xs, h => by
      obtain ⟨hx, hxs⟩ := List.pairwise_cons.mp h
      show List.orderedInsert _ x (List.insertionSort _ xs) = _
      rw [show List.insertionSort (fun a b => a.dmxFrom.value ≤ b.dmxFrom.value) xs =
          sortFunctionsAsc xs from rfl]
      rw [sortAsc_of_strict_desc xs hxs]
      rw [orderedInsert_of_not_rel]
      · simp
      · intro b hb
        have := hx b (by simpa using hb)
        omega

end Pygdtf

namespace Pygdtf

theorem markTargets_nil (c : DmxChannel) : markTargets [] c = c := by
  simp [markTargets]

theorem markTargets_comp (t1 t2 : List (Option String)) (c : DmxChannel) :
    markTargets t2 (markTargets t1 c) = markTargets (t1 ++ t2) c := by
  by_cases h1 : c.dmxBreak = DmxBreakVal.overwrite ∧ c.geometry ∈ t1 <;>
    by_cases h2 : c.dmxBreak = DmxBreakVal.overwrite ∧ c.geometry ∈ t2 <;>
      simp [markTargets, h1, h2] <;> aesop

theorem markTargets_congr (t1 t2 : List (Option String))
    (h : ∀ x, x ∈ t1 ↔ x ∈ t2) (c : DmxChannel) :
    markTargets t1 c = markTargets t2 c := by
  unfold markTargets
  have : (c.dmxBreak = DmxBreakVal.overwrite ∧ c.geometry ∈ t1) ↔
      (c.dmxBreak = DmxBreakVal.overwrite ∧ c.geometry ∈ t2) :=
    and_congr_right fun _ => h _
  split <;> split <;> first | rfl | (exfalso; tauto)

theorem map_markTargets_comp (t1 t2 : List (Option String))
    (chs : List DmxChannel) :
    (chs.map (markTargets t1)).map (markTargets t2) =
      chs.map (markTargets (t1 ++ t2)) := by
  rw [List.map_map]
  exact List.map_congr_left (fun c _ => markTargets_comp t1 t2 c)

theorem gdc_snd (geoms : List Geometry) (mg : Option String)
    (chs : List DmxChannel) :
    (getDmxChannels geoms mg chs).2 =
      chs.map (markTargets (targetsOfRoot (dmxRootOf geoms mg))) := by
  cases h : dmxRootOf geoms mg with
  | none =>
      simp only [getDmxChannels, h]
      exact ((List.map_congr_left
        (fun c _ => (markTargets_nil c))).trans (by simp)).symm
  | some root => simp [getDmxChannels, h, targetsOfRoot, getChannelsForGeometry]

theorem gvc_snd (geoms : List Geometry) (mg : Option String)
    (chs : List DmxChannel) :
    (getVirtualChannels geoms mg chs).2 =
      chs.map (markTargets (targetsOfRoot (getGeometryByName geoms mg))) := by
  cases h : getGeometryByName geoms mg with
  | none =>
      simp only [getVirtualChannels, h]
      exact ((List.map_congr_left
        (fun c _ => (markTargets_nil c))).trans (by simp)).symm
  | some root => simp [getVirtualChannels, h, targetsOfRoot, getChannelsForGeometry]

theorem gdc_fst (geoms : List Geometry) (mg : Option String)
    (chs1 chs2 : List DmxChannel)
    (h : ∀ root, dmxRootOf geoms mg = some root →
      chs1.map (markTargets (refTargets root)) =
        chs2.map (markTargets (refTargets root))) :
    (getDmxChannels geoms mg chs1).1 = (getDmxChannels geoms mg chs2).1 := by
  cases hr : dmxRootOf geoms mg with
  | none => simp [getDmxChannels, hr]
  | some root => simp [getDmxChannels, hr, getChannelsForGeometry, h root hr]

theorem gvc_fst (geoms : List Geometry) (mg : Option String)
    (chs1 chs2 : List DmxChannel)
    (h : ∀ root, getGeometryByName geoms mg = some root →
      chs1.map (markTargets (refTargets root)) =
        chs2.map (markTargets (refTargets root))) :
    (getVirtualChannels geoms mg chs1).1 =
      (getVirtualChannels geoms mg chs2).1 := by
  cases hr : getGeometryByName geoms mg with
  | none => simp [getVirtualChannels, hr]
  | some root => simp [getVirtualChannels, hr, getChannelsForGeometry, h root hr]

theorem state_ext (a b : DmxModeState) (h1 : a.geometry = b.geometry)
    (h2 : a.channels = b.channels) (h3 : a.dmxChannels = b.dmxChannels)
    (h4 : a.virtualChannels = b.virtualChannels) (h5 : a.dmxBreaks = b.dmxBreaks)
    (h6 : a.dmxChannelsCount = b.dmxChannelsCount)
    (h7 : a.virtualChannelsCount = b.virtualChannelsCount) : a = b := by
  cases a
  cases b
  simp_all

theorem process_geometry (geoms : List Geometry) (st : DmxModeState) :
    (processDmxChannels geoms st).geometry = st.geometry := rfl

theorem process_dmxChannels (geoms : List Geometry) (st : DmxModeState) :
    (processDmxChannels geoms st).dmxChannels =
      (getDmxChannels geoms st.geometry st.channels).1.flatten := rfl

theorem process_virtualChannels (geoms : List Geometry) (st : DmxModeState) :
    (processDmxChannels geoms st).virtualChannels =
      (getVirtualChannels geoms st.geometry
        (getDmxChannels geoms st.geometry st.channels).2).1 := rfl

theorem process_channels_eq (geoms : List Geometry) (st : DmxModeState) :
    (processDmxChannels geoms st).channels =
      (getVirtualChannels geoms st.geometry
        (getDmxChannels geoms st.geometry st.channels).2).2 := rfl

theorem process_dmxBreaks (geoms : List Geometry) (st : DmxModeState) :
    (processDmxChannels geoms st).dmxBreaks =
      (groupBreaks (getDmxChannels geoms st.geometry st.channels).1.flatten).map
        (fun kv => (kv.1, kv.2.dedup.length)) := rfl

theorem process_dmxCount (geoms : List Geometry) (st : DmxModeState) :
    (processDmxChannels geoms st).dmxChannelsCount =
      (((groupBreaks (getDmxChannels geoms st.geometry st.channels).1.flatten).map
        (fun kv => (kv.1, kv.2.dedup.length))).map (fun kv => kv.2)).sum := rfl

theorem process_virtCount (geoms : List Geometry) (st : DmxModeState) :
    (processDmxChannels geoms st).virtualChannelsCount =
      (getVirtualChannels geoms st.geometry
        (getDmxChannels geoms st.geometry st.channels).2).1.length := rfl

theorem root_rel (geoms : List Geometry) (mg : Option String) :
    getGeometryByName geoms mg = none ∨
      dmxRootOf geoms mg = getGeometryByName geoms mg := by
  cases h : getGeometryByName geoms mg with
  | none => exact Or.inl rfl
  | some g => exact Or.inr (by simp [dmxRootOf, h])

end Pygdtf

namespace Pygdtf

theorem process_process (geoms : List Geometry) (st : DmxModeState) :
    processDmxChannels geoms (processDmxChannels geoms st) =
      processDmxChannels geoms st := by
  have hTDV : targetsOfRoot (dmxRootOf geoms st.geometry) =
        targetsOfRoot (getGeometryByName geoms st.geometry) ∨
      targetsOfRoot (getGeometryByName geoms st.geometry) = [] := by
    rcases root_rel geoms st.geometry with h | h
    · exact Or.inr (by rw [h]; rfl)
    · exact Or.inl (by rw [h])
  have hC1 : (processDmxChannels geoms st).channels =
      st.channels.map (markTargets
        (targetsOfRoot (dmxRootOf geoms st.geometry) ++
          targetsOfRoot (getGeometryByName geoms st.geometry))) := by
    rw [process_channels_eq, gvc_snd, gdc_snd, map_markTargets_comp]
  have hmark : ∀ ts : List (Option String),
      (∀ x, x ∈ targetsOfRoot (dmxRootOf geoms st.geometry) ++
          targetsOfRoot (getGeometryByName geoms st.geometry) → x ∈ ts) →
      ((processDmxChannels geoms st).channels.map (markTargets ts) =
        st.channels.map (markTargets ts)) := by
    intro ts hts
    rw [hC1, map_markTargets_comp]
    refine List.map_congr_left (fun c _ => markTargets_congr _ _ (fun x => ?_) c)
    constructor
    · intro hx
      rcases List.mem_append.mp hx with hx | hx
      · exact hts x hx
      · exact hx
    · intro hx
      exact List.mem_append.mpr (Or.inr hx)
  have hmapD : ∀ root,
      dmxRootOf geoms (processDmxChannels geoms st).geometry = some root →
      (processDmxChannels geoms st).channels.map (markTargets (refTargets root)) =
        st.channels.map (markTargets (refTargets root)) := by
    intro root hroot
    rw [process_geometry] at hroot
    have : refTargets root = targetsOfRoot (dmxRootOf geoms st.geometry) := by
      rw [hroot]; rfl
    rw [this]
    apply hmark
    intro x hx
    rcases List.mem_append.mp hx with hx | hx
    · exact hx
    · rcases hTDV with h | h
      · rw [h]; exact hx
      · rw [h] at hx; simp at hx
  have hD1 : (getDmxChannels geoms (processDmxChannels geoms st).geometry
        (processDmxChannels geoms st).channels).1 =
      (getDmxChannels geoms st.geometry st.channels).1 := by
    rw [process_geometry]
    apply gdc_fst
    intro root hroot
    have := hmapD root (by rw [process_geometry]; exact hroot)
    exact this
  have hD2 : (getDmxChannels geoms (processDmxChannels geoms st).geometry
        (processDmxChannels geoms st).channels).2.map
          (markTargets (targetsOfRoot (getGeometryByName geoms st.geometry))) =
      (getDmxChannels geoms st.geometry st.channels).2.map
        (markTargets (targetsOfRoot (getGeometryByName geoms st.geometry))) := by
    rw [process_geometry, gdc_snd, gdc_snd, map_markTargets_comp,
      map_markTargets_comp, hC1, map_markTargets_comp]
    refine List.map_congr_left (fun c _ => markTargets_congr _ _ (fun x => ?_) c)
    simp only [List.mem_append]
    rcases hTDV with h | h
    · rw [h]; tauto
    · rw [h]; simp
  have hV1 : (getVirtualChannels geoms (processDmxChannels geoms st).geometry
        (getDmxChannels geoms (processDmxChannels geoms st).geometry
          (processDmxChannels geoms st).channels).2).1 =
      (getVirtualChannels geoms st.geometry
        (getDmxChannels geoms st.geometry st.channels).2).1 := by
    rw [process_geometry]
    apply gvc_fst
    intro root hroot
    have hrt : refTargets root =
        targetsOfRoot (getGeometryByName geoms st.geometry) := by
      rw [hroot]; rfl
    rw [hrt]
    have := hD2
    rw [process_geometry] at this
    exact this
  have hV2 : (getVirtualChannels geoms (processDmxChannels geoms st).geometry
        (getDmxChannels geoms (processDmxChannels geoms st).geometry
          (processDmxChannels geoms st).channels).2).2 =
      (getVirtualChannels geoms st.geometry
        (getDmxChannels geoms st.geometry st.channels).2).2 := by
    rw [process_geometry, gvc_snd, gvc_snd, gdc_snd, gdc_snd, map_markTargets_comp,
      map_markTargets_comp, hC1, map_markTargets_comp]
    refine List.map_congr_left (fun c _ => markTargets_congr _ _ (fun x => ?_) c)
    simp only [List.mem_append]
    rcases hTDV with h | h
    · rw [h]; tauto
    · rw [h]; simp
  apply state_ext
  · rfl
  · rw [process_channels_eq geoms (processDmxChannels geoms st), hV2,
      ← process_channels_eq geoms st]
  · rw [process_dmxChannels geoms (processDmxChannels geoms st), hD1,
      ← process_dmxChannels geoms st]
  · rw [process_virtualChannels geoms (processDmxChannels geoms st), hV1,
      ← process_virtualChannels geoms st]
  · rw [process_dmxBreaks geoms (processDmxChannels geoms st), hD1,
      ← process_dmxBreaks geoms st]
  · rw [process_dmxCount geoms (processDmxChannels geoms st), hD1,
      ← process_dmxCount geoms st]
  · rw [process_virtCount geoms (processDmxChannels geoms st), hV1,
      ← process_virtCount geoms st]

end Pygdtf

namespace Pygdtf

mutual

theorem refFree_refTargets : ∀ (g : Geometry), refFree g = true → refTargets g = []
  | Geometry.node _ children, h => by
      simp only [refFree] at h
      simp only [refTargets]
      exact refFree_refTargetsList children h
  | Geometry.ref _ _ _, h => by simp [refFree] at h

theorem refFree_refTargetsList : ∀ (gs : List Geometry),
    refFreeList gs = true → refTargetsList gs = []
  | [], _ => rfl
  | g :: rest, h => by
      simp only [refFreeList, Bool.and_eq_true] at h
      simp only [refTargetsList]
      rw [refFree_refTargets g h.1, refFree_refTargetsList rest h.2]
      rfl

end

mutual

theorem name_of_found : ∀ (gn : Option String) (g r : Geometry),
    getGeometryByNameIn gn g = some r → geomName r = gn
  | gn, Geometry.node n children, r, h => by
      rw [getGeometryByNameIn] at h
      split at h
      · next heq =>
          cases h
          simpa [geomName] using heq
      · exact name_of_foundList gn children r h
  | gn, Geometry.ref n t bs, r, h => by
      rw [getGeometryByNameIn] at h
      split at h
      · next heq =>
          cases h
          simpa [geomName] using heq
      · cases h

theorem name_of_foundList : ∀ (gn : Option String) (gs : List Geometry) (r : Geometry),
    getGeometryByNameInList gn gs = some r → geomName r = gn
  | gn, [], r, h => by cases h
  | gn, g :: rest, r, h => by
      rw [getGeometryByNameInList] at h
      split at h
      · next heq =>
          cases h
          exact name_of_found gn g r heq
      · exact name_of_foundList gn rest r h

end

end Pygdtf

namespace Pygdtf

mutual

theorem collect_mem : ∀ (g : Geometry) (chs : List DmxChannel),
    (∀ c ∈ chs, c.dmxBreak ≠ DmxBreakVal.overwrite) → refFree g = true →
    ∀ p ∈ collectPairs g chs, p.1 ∈ chs ∧ ∃ n cc, p.2 = Geometry.node n cc
  | Geometry.node n children, chs, hnow, hg, p, hp => by
      rw [collectPairs] at hp
      rcases List.mem_append.mp hp with hp | hp
      · simp only [gatherAtGeometry, List.mem_map] at hp
        obtain ⟨c, hc, rfl⟩ := hp
        have hcm := List.mem_of_mem_filter hc
        refine ⟨?_, n, children, rfl⟩
        simp only [gatherTransform, if_neg (hnow c hcm)]
        exact hcm
      · exact collect_memList children chs hnow (by simpa [refFree] using hg) p hp
  | Geometry.ref n t bs, chs, hnow, hg, p, hp => by
      simp [refFree] at hg

theorem collect_memList : ∀ (gs : List Geometry) (chs : List DmxChannel),
    (∀ c ∈ chs, c.dmxBreak ≠ DmxBreakVal.overwrite) → refFreeList gs = true →
    ∀ p ∈ collectPairsList gs chs, p.1 ∈ chs ∧ ∃ n cc, p.2 = Geometry.node n cc
  | [], chs, _, _, p, hp => by cases hp
  | g :: rest, chs, hnow, hg, p, hp => by
      rw [collectPairsList] at hp
      simp only [refFreeList, Bool.and_eq_true] at hg
      rcases List.mem_append.mp hp with hp | hp
      · exact collect_mem g chs hnow hg.1 p hp
      · exact collect_memList rest chs hnow hg.2 p hp

end

mutual

theorem collect_append_mem : ∀ (g : Geometry) (xs ys : List DmxChannel)
    (p : DmxChannel × Geometry),
    p ∈ collectPairs g (xs ++ ys) ↔ p ∈ collectPairs g xs ∨ p ∈ collectPairs g ys
  | Geometry.node n children, xs, ys, p => by
      rw [collectPairs, collectPairs, collectPairs]
      simp only [gatherAtGeometry, List.filter_append, List.map_append]
      rw [List.mem_append, List.mem_append, List.mem_append,
        List.mem_append, collect_append_memList children xs ys p]
      tauto
  | Geometry.ref n t bs, xs, ys, p => by
      rw [collectPairs, collectPairs, collectPairs]
      simp only [gatherAtGeometry, List.filter_append, List.map_append]
      rw [List.mem_append]

theorem collect_append_memList : ∀ (gs : List Geometry) (xs ys : List DmxChannel)
    (p : DmxChannel × Geometry),
    p ∈ collectPairsList gs (xs ++ ys) ↔
      p ∈ collectPairsList gs xs ∨ p ∈ collectPairsList gs ys
  | [], xs, ys, p => by simp [collectPairsList]
  | g :: rest, xs, ys, p => by
      rw [collectPairsList, collectPairsList, collectPairsList]
      rw [List.mem_append, List.mem_append, List.mem_append,
        collect_append_mem g xs ys p, collect_append_memList rest xs ys p]
      tauto

end

theorem mem_collect_of_match (n : Option String) (children : List Geometry)
    (chs : List DmxChannel) (c : DmxChannel) (hc : c ∈ chs)
    (hgeo : c.geometry = n) (hnow : c.dmxBreak ≠ DmxBreakVal.overwrite) :
    (c, Geometry.node n children) ∈ collectPairs (Geometry.node n children) chs := by
  rw [collectPairs]
  apply List.mem_append.mpr
  left
  simp only [gatherAtGeometry, List.mem_map]
  refine ⟨c, ?_, ?_⟩
  · apply List.mem_filter.mpr
    exact ⟨hc, by simp [matchName, hgeo]⟩
  · simp [gatherTransform, if_neg hnow]

end Pygdtf

namespace Pygdtf

theorem bucket_step (acc : List (List (Option DmxChannel)))
    (p : DmxChannel × Geometry) (hp : PairShape p) (hinv : BucketInv acc) :
    BucketInv (bucketChannel acc p) ∧
      ∀ x : Int, OccAt (bucketChannel acc p) x ↔ OccAt acc x ∨ x = coarseOf p.1 := by
  obtain ⟨c, g⟩ := p
  obtain ⟨hb, ⟨a, ha1, hoff⟩, n, cc, hg⟩ := hp
  simp only at hb hoff hg
  subst hg
  have h0 : (0 : Int) ≤ a := by omega
  have hcoarse : coarseOf c = a := by simp [coarseOf, hoff]
  have hmax : max (max a 0) (max 0 0) = a := by simp [max_eq_left h0]
  have hok0 : SlotsOkFrom 0 (acc.headD []) := by
    rcases hinv with h | ⟨bl, hbl, hok⟩
    · subst h; intro j d hj; simp at hj
    · subst hbl; simpa using hok
  have hred : bucketChannel acc (c, Geometry.node n cc) =
      [(if ((acc.headD []).length : Int) < a then
          acc.headD [] ++
            List.replicate (a - ((acc.headD []).length : Int)).toNat none
        else acc.headD []).set (a - 1).toNat
          (some { c with offset := some [a] })] := by
    rcases hinv with h | ⟨bl, hbl, _⟩
    · subst h; simp [bucketChannel, hoff, hb, hmax, max_eq_left h0]
    · subst hbl; simp [bucketChannel, hoff, hb, hmax, max_eq_left h0]
  rw [hred, hcoarse]
  set bl0 := acc.headD [] with hbl0
  set bl1 := (if (bl0.length : Int) < a then
      bl0 ++ List.replicate (a - (bl0.length : Int)).toNat none
    else bl0) with hbl1
  set c1 : DmxChannel := { c with offset := some [a] } with hc1
  have hlen1 : a ≤ (bl1.length : Int) := by
    by_cases hc : ((bl0.length : Int) < a)
    · rw [hbl1, if_pos hc]
      simp only [List.length_append, List.length_replicate]
      omega
    · rw [hbl1, if_neg hc]; omega
  have hfwd1 : ∀ (j : Nat) (o : Option DmxChannel),
      bl0[j]? = some o → bl1[j]? = some o := by
    intro j o hj
    have hjl : j < bl0.length := (List.getElem?_eq_some_iff.mp hj).1
    by_cases hc : ((bl0.length : Int) < a)
    · rw [hbl1, if_pos hc, List.getElem?_append, if_pos hjl]; exact hj
    · rwa [hbl1, if_neg hc]
  have hbwd1 : ∀ (j : Nat) (d : DmxChannel),
      bl1[j]? = some (some d) → bl0[j]? = some (some d) := by
    intro j d hj
    by_cases hc : ((bl0.length : Int) < a)
    · rw [hbl1, if_pos hc, List.getElem?_append] at hj
      rcases lt_or_ge j bl0.length with h | h
      · rwa [if_pos h] at hj
      · rw [if_neg (by omega), List.getElem?_replicate] at hj
        split at hj <;> simp_all
    · rwa [hbl1, if_neg hc] at hj
  have hset : ((a - 1).toNat : Int) = a - 1 := by omega
  have hsetlt : (a - 1).toNat < bl1.length := by omega
  constructor
  · refine Or.inr ⟨_, rfl, ?_⟩
    intro j d hj
    rw [List.getElem?_set] at hj
    by_cases hje : (a - 1).toNat = j
    · rw [if_pos hje, if_pos (by omega)] at hj
      have hd : d = c1 := by
        subst hje
        exact (Option.some.inj (Option.some.inj hj)).symm
      subst hd
      refine ⟨hb, ?_⟩
      rw [hc1]
      simp only
      congr 2
      omega
    · rw [if_neg hje] at hj
      exact hok0 j d (hbwd1 j d hj)
  · intro x
    simp only [OccAt, List.headD_cons]
    constructor
    · rintro ⟨hx1, d, hd⟩
      rw [List.getElem?_set] at hd
      by_cases hje : (a - 1).toNat = (x - 1).toNat
      · right; omega
      · rw [if_neg hje] at hd
        exact Or.inl ⟨hx1, d, hbwd1 _ d hd⟩
    · rintro (⟨hx1, d, hd⟩ | hxa)
      · refine ⟨hx1, ?_⟩
        by_cases hje : (a - 1).toNat = (x - 1).toNat
        · exact ⟨c1, by rw [List.getElem?_set, if_pos hje, if_pos (by omega)]⟩
        · exact ⟨d, by rw [List.getElem?_set, if_neg hje]; exact hfwd1 _ _ hd⟩
      · subst hxa
        refine ⟨ha1, c1, ?_⟩
        rw [List.getElem?_set, if_pos rfl, if_pos (by omega)]

end Pygdtf

namespace Pygdtf

theorem bucket_fold (ps : List (DmxChannel × Geometry))
    (acc : List (List (Option DmxChannel)))
    (hps : ∀ p ∈ ps, PairShape p) (hinv : BucketInv acc) :
    BucketInv (ps.foldl bucketChannel acc) ∧
      ∀ x : Int, OccAt (ps.foldl bucketChannel acc) x ↔
        OccAt acc x ∨ ∃ p ∈ ps, x = coarseOf p.1 := by
  induction ps generalizing acc with
  | nil => simpa using hinv
  | cons p rest ih =>
      obtain ⟨hstep1, hstep2⟩ :=
        bucket_step acc p (hps p (List.mem_cons_self p rest)) hinv
      obtain ⟨h1, h2⟩ := ih (bucketChannel acc p)
        (fun q hq => hps q (List.mem_cons_of_mem p hq)) hstep1
      refine ⟨h1, fun x => ?_⟩
      rw [List.foldl_cons] at *
      rw [h2 x, hstep2 x]
      simp only [List.mem_cons]
      constructor
      · rintro ((h | h) | ⟨q, hq, hx⟩)
        · exact Or.inl h
        · exact Or.inr ⟨p, Or.inl rfl, h⟩
        · exact Or.inr ⟨q, Or.inr hq, hx⟩
      · rintro (h | ⟨q, (rfl | hq), hx⟩)
        · exact Or.inl (Or.inl h)
        · exact Or.inl (Or.inr hx)
        · exact Or.inr ⟨q, hq, hx⟩

theorem slotsOkFrom_shift (o : Option DmxChannel) (tl : List (Option DmxChannel))
    (k : Nat) (hok : SlotsOkFrom k (o :: tl)) : SlotsOkFrom (k + 1) tl := by
  intro j c hj
  have := hok (j + 1) c (by simpa using hj)
  refine ⟨this.1, ?_⟩
  rw [this.2]
  congr 2
  push_cast
  ring

theorem covCount_eq (bl : List (Option DmxChannel)) (k : Nat)
    (hok : SlotsOkFrom k bl) (a : Int) :
    coverCount (bl.filterMap id) 1 a =
      if ((k : Int) + 1 ≤ a ∧ (bl[(a - (k : Int) - 1).toNat]?.getD none).isSome)
        then 1 else 0 := by
  induction bl generalizing k with
  | nil => simp [coverCount]
  | cons o tl ih =>
      have htl := slotsOkFrom_shift o tl k hok
      have ihtl := ih (k + 1) htl
      push_cast at ihtl
      have hidx3 : (a - ((k : Int) + 1) - 1).toNat = (a - (k : Int) - 2).toNat := by
        omega
      rw [hidx3] at ihtl
      cases o with
      | none =>
          rw [List.filterMap_cons]
          simp only [id]
          rw [ihtl]
          by_cases h2 : (k : Int) + 2 ≤ a
          · have hidx : (a - (k : Int) - 1).toNat = (a - (k : Int) - 2).toNat + 1 := by
              omega
            rw [hidx, List.getElem?_cons_succ]
            by_cases h3 : (tl[(a - (k : Int) - 2).toNat]?.getD none).isSome = true
            · rw [if_pos ⟨by omega, h3⟩, if_pos ⟨by omega, h3⟩]
            · have hn1 : ¬ ((k : Int) + 1 + 1 ≤ a ∧
                  (tl[(a - (k : Int) - 2).toNat]?.getD none).isSome = true) := by
                rintro ⟨_, hx⟩; exact h3 hx
              have hn2 : ¬ ((k : Int) + 1 ≤ a ∧
                  (tl[(a - (k : Int) - 2).toNat]?.getD none).isSome = true) := by
                rintro ⟨_, hx⟩; exact h3 hx
              rw [if_neg hn1, if_neg hn2]
          · have hn1 : ¬ ((k : Int) + 1 + 1 ≤ a ∧
                (tl[(a - (k : Int) - 2).toNat]?.getD none).isSome = true) := by
              rintro ⟨hx, _⟩; omega
            have hn2 : ¬ ((k : Int) + 1 ≤ a ∧
                (((none : Option DmxChannel) ::
                  tl)[(a - (k : Int) - 1).toNat]?.getD none).isSome = true) := by
              rintro ⟨h1, hx⟩
              have hidx : (a - (k : Int) - 1).toNat = 0 := by omega
              rw [hidx, List.getElem?_cons_zero] at hx
              simp at hx
            rw [if_neg hn1, if_neg hn2]
      | some c =>
          obtain ⟨hcb, hco⟩ := hok 0 c (by simp)
          rw [List.filterMap_cons]
          simp only [id]
          have hcc : (coverCount (c :: tl.filterMap id) 1 a) =
              (if a = (k : Int) + 1 then 1 else 0) +
                coverCount (tl.filterMap id) 1 a := by
            simp only [coverCount, List.filter_cons]
            by_cases hac : a = (k : Int) + 1
            · rw [if_pos, if_pos hac]
              · simp [List.length_cons, Nat.add_comm]
              · simp [hcb, hco, hac, List.contains_cons]
            · rw [if_neg, if_neg hac]
              · simp
              · simp only [hcb, hco, Bool.and_eq_true, beq_iff_eq,
                  decide_eq_true_eq]
                intro hcon
                rcases hcon with ⟨_, h⟩
                simp [List.contains_cons] at h
                omega
          rw [hcc, ihtl]
          by_cases hac : a = (k : Int) + 1
          · have hidx : (a - (k : Int) - 1).toNat = 0 := by omega
            have hn1 : ¬ ((k : Int) + 1 + 1 ≤ a ∧
                (tl[(a - (k : Int) - 2).toNat]?.getD none).isSome = true) := by
              rintro ⟨hx, _⟩; omega
            have hp2 : ((k : Int) + 1 ≤ a ∧
                ((some c :: tl)[(a - (k : Int) - 1).toNat]?.getD none).isSome
                  = true) := by
              refine ⟨by omega, ?_⟩
              rw [hidx, List.getElem?_cons_zero]
              simp
            rw [if_pos hac, if_neg hn1, if_pos hp2]
          · rw [if_neg hac]
            by_cases h2 : (k : Int) + 2 ≤ a
            · have hidx : (a - (k : Int) - 1).toNat =
                  (a - (k : Int) - 2).toNat + 1 := by omega
              rw [hidx, List.getElem?_cons_succ]
              by_cases h3 : (tl[(a - (k : Int) - 2).toNat]?.getD none).isSome
                  = true
              · rw [if_pos ⟨by omega, h3⟩, if_pos ⟨by omega, h3⟩]
              · have hn1 : ¬ ((k : Int) + 1 + 1 ≤ a ∧
                    (tl[(a - (k : Int) - 2).toNat]?.getD none).isSome = true) := by
                  rintro ⟨_, hx⟩; exact h3 hx
                have hn2 : ¬ ((k : Int) + 1 ≤ a ∧
                    (tl[(a - (k : Int) - 2).toNat]?.getD none).isSome = true) := by
                  rintro ⟨_, hx⟩; exact h3 hx
                rw [if_neg hn1, if_neg hn2]
            · have hn1 : ¬ ((k : Int) + 1 + 1 ≤ a ∧
                  (tl[(a - (k : Int) - 2).toNat]?.getD none).isSome = true) := by
                rintro ⟨hx, _⟩; omega
              have hn2 : ¬ ((k : Int) + 1 ≤ a ∧
                  ((some c :: tl)[(a - (k : Int) - 1).toNat]?.getD
                    none).isSome = true) := by
                rintro ⟨h1, hx⟩
                have hax : a = (k : Int) + 1 := by omega
                exact hac hax
              rw [if_neg hn1, if_neg hn2]

end Pygdtf

namespace Pygdtf

theorem slots_count (bl : List (Option DmxChannel)) (k : Nat) (M : Int)
    (hub : ∀ (j : Nat) (c : DmxChannel), bl[j]? = some (some c) →
      (j : Int) + (k : Int) + 1 ≤ M) :
    ((bl.filterMap id).length : Int) ≤ M - (k : Int) ∨ bl.filterMap id = [] := by
  induction bl generalizing k M with
  | nil => right; rfl
  | cons o tl ih =>
      have hubtl : ∀ (j : Nat) (c : DmxChannel), tl[j]? = some (some c) →
          (j : Int) + ((k + 1 : Nat) : Int) + 1 ≤ M := by
        intro j c hj
        have := hub (j + 1) c (by simpa using hj)
        push_cast
        push_cast at this
        omega
      cases o with
      | none =>
          rw [List.filterMap_cons]
          simp only [id]
          rcases ih (k + 1) M hubtl with h | h
          · left; push_cast at h; omega
          · right; exact h
      | some c =>
          have hc := hub 0 c (by simp)
          rw [List.filterMap_cons]
          simp only [id]
          left
          rcases ih (k + 1) M hubtl with h | h
          · push_cast at h
            simp only [List.length_cons]
            push_cast
            omega
          · rw [h]
            simp only [List.length_cons, List.length_nil]
            push_cast at hc ⊢
            omega

theorem slots_cover (bl : List (Option DmxChannel)) (k : Nat) (M : Int)
    (hok : SlotsOkFrom k bl)
    (hub : ∀ (j : Nat) (c : DmxChannel), bl[j]? = some (some c) →
      (j : Int) + (k : Int) + 1 ≤ M)
    (hM : M ≤ (k : Int) + ((bl.filterMap id).length : Int)) :
    ∀ a : Int, (k : Int) + 1 ≤ a → a ≤ M →
      ∃ c, bl[(a - (k : Int) - 1).toNat]? = some (some c) := by
  induction bl generalizing k M with
  | nil =>
      intro a ha1 ha2
      simp only [List.filterMap_nil, List.length_nil] at hM
      omega
  | cons o tl ih =>
      have htl := slotsOkFrom_shift o tl k hok
      have hubtl : ∀ (j : Nat) (c : DmxChannel), tl[j]? = some (some c) →
          (j : Int) + ((k + 1 : Nat) : Int) + 1 ≤ M := by
        intro j c hj
        have := hub (j + 1) c (by simpa using hj)
        push_cast
        push_cast at this
        omega
      intro a ha1 ha2
      cases o with
      | none =>
          rcases slots_count tl (k + 1) M hubtl with hcnt | hnil
          · rw [List.filterMap_cons] at hM
            simp only [id] at hM
            push_cast at hcnt
            omega
          · rw [List.filterMap_cons] at hM
            simp only [id] at hM
            rw [hnil] at hM
            simp only [List.length_nil] at hM
            omega
      | some c =>
          by_cases hac : a = (k : Int) + 1
          · have hidx : (a - (k : Int) - 1).toNat = 0 := by omega
            rw [hidx, List.getElem?_cons_zero]
            exact ⟨c, rfl⟩
          · have ha2' : (k : Int) + 2 ≤ a := by omega
            rw [List.filterMap_cons] at hM
            simp only [id, List.length_cons] at hM
            have hMtl : M ≤ ((k + 1 : Nat) : Int) +
                ((tl.filterMap id).length : Int) := by
              push_cast
              push_cast at hM
              omega
            obtain ⟨d, hd⟩ := ih (k + 1) M htl hubtl hMtl a (by push_cast; omega) ha2
            have hidx : (a - (k : Int) - 1).toNat =
                (a - ((k + 1 : Nat) : Int) - 1).toNat + 1 := by
              push_cast
              omega
            rw [hidx, List.getElem?_cons_succ]
            exact ⟨d, hd⟩

end Pygdtf

namespace Pygdtf

theorem le_maxCoarseFrom (L : List DmxChannel) (m : Int) :
    m ≤ maxCoarseFrom m L := by
  induction L generalizing m with
  | nil => exact le_refl m
  | cons c tl ih =>
      calc m ≤ max m (coarseOf c) := le_max_left _ _
      _ ≤ maxCoarseFrom (max m (coarseOf c)) tl := ih _

theorem coarse_le_maxCoarseFrom (L : List DmxChannel) (m : Int)
    (c : DmxChannel) (hc : c ∈ L) : coarseOf c ≤ maxCoarseFrom m L := by
  induction L generalizing m with
  | nil => cases hc
  | cons d tl ih =>
      rcases List.mem_cons.mp hc with rfl | hc
      · calc coarseOf c ≤ max m (coarseOf c) := le_max_right _ _
        _ ≤ maxCoarseFrom (max m (coarseOf c)) tl := le_maxCoarseFrom _ _
      · exact ih _ hc

theorem maxCoarseFrom_cases (L : List DmxChannel) (m : Int) :
    maxCoarseFrom m L = m ∨ ∃ c ∈ L, maxCoarseFrom m L = coarseOf c := by
  induction L generalizing m with
  | nil => left; rfl
  | cons c tl ih =>
      rcases ih (max m (coarseOf c)) with h | ⟨d, hd, h⟩
      · rcases max_choice m (coarseOf c) with hm | hm
        · left
          show maxCoarseFrom (max m (coarseOf c)) tl = m
          rw [h, hm]
        · right
          exact ⟨c, List.mem_cons_self c tl,
            by show maxCoarseFrom (max m (coarseOf c)) tl = coarseOf c
               rw [h, hm]⟩
      · right
        exact ⟨d, List.mem_cons_of_mem c hd, h⟩

theorem highestOffset_eq_maxCoarse (L : List DmxChannel)
    (h : ∀ c ∈ L, ∃ a : Int, 1 ≤ a ∧ c.offset = some [a]) :
    highestOffset L = maxCoarseFrom 0 L := by
  suffices hgen : ∀ m : Int,
      L.foldl (fun h c =>
        match c.offset with
        | none => h
        | some offs =>
            if offs.headD 0 > h then offs.foldl max (offs.headD 0) else h) m =
      maxCoarseFrom m L by
    exact hgen 0
  induction L with
  | nil => intro m; rfl
  | cons c tl ih =>
      intro m
      obtain ⟨a, ha1, hoff⟩ := h c (List.mem_cons_self c tl)
      have htl : ∀ d ∈ tl, ∃ a : Int, 1 ≤ a ∧ d.offset = some [a] :=
        fun d hd => h d (List.mem_cons_of_mem c hd)
      have hstep : (match c.offset with
          | none => m
          | some offs =>
              if offs.headD 0 > m then offs.foldl max (offs.headD 0) else m) =
          max m (coarseOf c) := by
        rw [hoff]
        simp only [List.headD_cons, List.foldl_cons, List.foldl_nil, max_self]
        by_cases hm : a > m
        · rw [if_pos hm]
          have : max m (coarseOf c) = coarseOf c := by
            simp [coarseOf, hoff]
            omega
          rw [this]
          simp [coarseOf, hoff]
        · rw [if_neg hm]
          have : max m (coarseOf c) = m := by
            simp [coarseOf, hoff]
            omega
          rw [this]
      rw [List.foldl_cons, hstep]
      exact ih htl _

theorem maxOffsetOfBreak_eq_maxCoarse (L : List DmxChannel)
    (h : ∀ c ∈ L, ChanShape c) :
    maxOffsetOfBreak L 1 = maxCoarseFrom 0 L := by
  suffices hgen : ∀ m : Int,
      L.foldl (fun mm c =>
        if c.dmxBreak == DmxBreakVal.int 1 then
          (c.offset.getD []).foldl max mm
        else mm) m = maxCoarseFrom m L by
    exact hgen 0
  induction L with
  | nil => intro m; rfl
  | cons c tl ih =>
      intro m
      obtain ⟨hb, a, ha1, hoff⟩ := h c (List.mem_cons_self c tl)
      have htl : ∀ d ∈ tl, ChanShape d :=
        fun d hd => h d (List.mem_cons_of_mem c hd)
      have hstep : (if c.dmxBreak == DmxBreakVal.int 1 then
          (c.offset.getD []).foldl max m else m) = max m (coarseOf c) := by
        rw [if_pos (by simp [hb]), hoff]
        simp [coarseOf, hoff]
      rw [List.foldl_cons, hstep]
      exact ih htl _

theorem chanShape_of_slots (bl : List (Option DmxChannel))
    (hok : SlotsOkFrom 0 bl) : ∀ c ∈ bl.filterMap id, ChanShape c := by
  intro c hc
  rw [List.mem_filterMap] at hc
  obtain ⟨o, ho, hoc⟩ := hc
  simp only [id] at hoc
  subst hoc
  obtain ⟨j, hj⟩ := List.getElem?_of_mem ho
  obtain ⟨hb, hoff⟩ := hok j c hj
  exact ⟨hb, (j : Int) + 1, by omega, by simpa using hoff⟩

theorem breaksOf_one (L : List DmxChannel)
    (h : ∀ c ∈ L, c.dmxBreak = DmxBreakVal.int 1) :
    ∀ b ∈ breaksOf L, b = 1 := by
  intro b hb
  rw [breaksOf, List.mem_dedup, List.mem_filterMap] at hb
  obtain ⟨c, hc, hbc⟩ := hb
  rw [h c hc] at hbc
  simpa using hbc.symm

end Pygdtf

namespace Pygdtf

theorem markTargets_nil_map (chs : List DmxChannel) :
    chs.map (markTargets []) = chs := by
  induction chs with
  | nil => rfl
  | cons c tl ih => simp [markTargets, ih]

theorem pass_flat (geoms : List Geometry) (gname : Option String)
    (root : Geometry) (chs : List DmxChannel)
    (h1 : getGeometryByName geoms gname = some root)
    (h2 : refFree root = true)
    (h3 : ∀ c ∈ chs, ChanShape c) :
    (getDmxChannels geoms gname chs).2 = chs ∧
    (getVirtualChannels geoms gname chs).2 = chs ∧
    ∃ bl : List (Option DmxChannel),
      (getDmxChannels geoms gname chs).1.flatten = bl.filterMap id ∧
      SlotsOkFrom 0 bl ∧
      ∀ a : Int, (1 ≤ a ∧ ∃ c, bl[(a - 1).toNat]? = some (some c)) ↔
        ∃ p ∈ collectPairs root chs, a = coarseOf p.1 := by
  have hroot : dmxRootOf geoms gname = some root := by
    rw [dmxRootOf, h1]
  have hts : refTargets root = [] := refFree_refTargets root h2
  have hchsU : chs.map (markTargets (refTargets root)) = chs := by
    rw [hts]
    exact markTargets_nil_map chs
  have hnow : ∀ c ∈ chs, c.dmxBreak ≠ DmxBreakVal.overwrite := by
    intro c hc h
    rw [(h3 c hc).1] at h
    cases h
  have hpair : ∀ p ∈ collectPairs root chs, PairShape p := by
    intro p hp
    obtain ⟨hmem, n, cc, hnode⟩ := collect_mem root chs hnow h2 p hp
    obtain ⟨hb, a, ha, ho⟩ := h3 p.1 hmem
    exact ⟨hb, ⟨a, ha, ho⟩, n, cc, hnode⟩
  obtain ⟨hinv, hocc⟩ :=
    bucket_fold (collectPairs root chs) [] hpair (Or.inl rfl)
  refine ⟨?_, ?_,
    ((collectPairs root chs).foldl bucketChannel []).headD [], ?_, ?_, ?_⟩
  · simp [getDmxChannels, hroot, getChannelsForGeometry, hchsU]
  · simp [getVirtualChannels, h1, getChannelsForGeometry, hchsU]
  · simp only [getDmxChannels, hroot, getChannelsForGeometry, hchsU]
    rcases hinv with h | ⟨bl, hbl, _⟩
    · rw [h]; rfl
    · rw [hbl]; simp
  · rcases hinv with h | ⟨bl, hbl, hok⟩
    · rw [h]; intro j c hj; simp at hj
    · rw [hbl]; simpa using hok
  · intro a
    have := hocc a
    rw [OccAt, OccAt] at this
    simp only [List.headD_nil] at this
    rw [this]
    constructor
    · rintro (⟨ha1, c, hac⟩ | h)
      · simp at hac
      · exact h
    · exact Or.inr

end Pygdtf

namespace Pygdtf

theorem occupied_of_covered (bl : List (Option DmxChannel))
    (hok : SlotsOkFrom 0 bl) (a : Int)
    (hc : addressCovered (bl.filterMap id) a = true) :
    1 ≤ a ∧ ∃ c, bl[(a - 1).toNat]? = some (some c) := by
  rw [addressCovered, List.any_eq_true] at hc
  obtain ⟨c, hcL, hx⟩ := hc
  rw [List.mem_filterMap] at hcL
  obtain ⟨o, ho, hoc⟩ := hcL
  simp only [id] at hoc
  subst hoc
  obtain ⟨j, hj⟩ := List.getElem?_of_mem ho
  obtain ⟨hb, hoff⟩ := hok j c hj
  rw [hoff] at hx
  simp only [List.contains_cons, List.contains_nil, Bool.or_false,
    beq_iff_eq] at hx
  have hax : a = (j : Int) + 1 := by
    simp only [Nat.cast_zero, add_zero] at hoff
    omega
  refine ⟨by omega, c, ?_⟩
  have hidx : (a - 1).toNat = j := by omega
  rw [hidx]
  exact hj

theorem occ_le_max (bl : List (Option DmxChannel)) (hok : SlotsOkFrom 0 bl)
    (a : Int) (ha : 1 ≤ a)
    (h : ∃ c, bl[(a - 1).toNat]? = some (some c)) :
    a ≤ maxCoarseFrom 0 (bl.filterMap id) := by
  obtain ⟨c, hc⟩ := h
  have hmem : c ∈ bl.filterMap id :=
    List.mem_filterMap.mpr ⟨some c, List.getElem?_mem hc, rfl⟩
  have hle := coarse_le_maxCoarseFrom (bl.filterMap id) 0 c hmem
  obtain ⟨_, hoff⟩ := hok _ c hc
  have hcoarse : coarseOf c = a := by
    rw [coarseOf, hoff]
    simp only [Option.getD_some, List.headD_cons]
    omega
  omega

theorem slots_hub (bl : List (Option DmxChannel)) (hok : SlotsOkFrom 0 bl) :
    ∀ (j : Nat) (c : DmxChannel), bl[j]? = some (some c) →
      (j : Int) + ((0 : Nat) : Int) + 1 ≤ maxCoarseFrom 0 (bl.filterMap id) := by
  intro j c hj
  have hmem : c ∈ bl.filterMap id :=
    List.mem_filterMap.mpr ⟨some c, List.getElem?_mem hj, rfl⟩
  have hle := coarse_le_maxCoarseFrom (bl.filterMap id) 0 c hmem
  obtain ⟨_, hoff⟩ := hok j c hj
  have hcoarse : coarseOf c = (j : Int) + 1 := by
    rw [coarseOf, hoff]
    simp only [Option.getD_some, List.headD_cons]
    omega
  push_cast
  omega

theorem aso_of_cover (bl : List (Option DmxChannel)) (hok : SlotsOkFrom 0 bl)
    (hcov : ∀ a : Int, 1 ≤ a → a ≤ maxCoarseFrom 0 (bl.filterMap id) →
      ∃ c, bl[(a - 1).toNat]? = some (some c)) :
    addressSpaceOk (bl.filterMap id) = true := by
  have hshape := chanShape_of_slots bl hok
  rw [addressSpaceOk, List.all_eq_true]
  intro b hb
  have hb1 := breaksOf_one _ (fun c hc => (hshape c hc).1) b hb
  subst hb1
  rw [List.all_eq_true]
  intro a ha
  simp only [List.mem_map, List.mem_range] at ha
  obtain ⟨k, hk, rfl⟩ := ha
  rw [maxOffsetOfBreak_eq_maxCoarse (bl.filterMap id) hshape] at hk
  have h2k : (k : Int) + 1 ≤ maxCoarseFrom 0 (bl.filterMap id) := by
    omega
  obtain ⟨c, hc⟩ := hcov ((k : Int) + 1) (by omega) h2k
  rw [covCount_eq bl 0 hok]
  rw [if_pos]
  · rfl
  · refine ⟨by push_cast; omega, ?_⟩
    have hidx : ((k : Int) + 1 - ((0 : Nat) : Int) - 1).toNat =
        ((k : Int) + 1 - 1).toNat := by push_cast; omega
    rw [hidx, hc]
    rfl

end Pygdtf

namespace Pygdtf

theorem expandWorklist_spec (matcher : TemplateMatcher) :
    ∀ (fuel : Nat) (queue seen ordered out : List String),
      (∀ x ∈ ordered, ∀ m, mainOf matcher x = some m → m ∈ seen) →
      (∀ x ∈ seen, x ∈ ordered ∨ x ∈ queue) →
      expandWorklist matcher fuel queue seen ordered = some out →
      ∀ x ∈ out, ∀ m, mainOf matcher x = some m → m ∈ out := by
  intro fuel
  induction fuel with
  | zero =>
      intro queue seen ordered out h1 h2 hrun
      cases queue with
      | nil =>
          simp only [expandWorklist, Option.some.injEq] at hrun
          subst hrun
          intro x hx m hm
          rcases h2 m (h1 x hx m hm) with h | h
          · exact h
          · simp at h
      | cons c rest => simp [expandWorklist] at hrun
  | succ fuel ih =>
      intro queue seen ordered out h1 h2 hrun
      cases queue with
      | nil =>
          simp only [expandWorklist, Option.some.injEq] at hrun
          subst hrun
          intro x hx m hm
          rcases h2 m (h1 x hx m hm) with h | h
          · exact h
          · simp at h
      | cons current rest =>
          rw [expandWorklist] at hrun
          cases hmc : mainOf matcher current with
          | none =>
              simp only [hmc] at hrun
              refine ih rest seen (ordered ++ [current]) out ?_ ?_ hrun
              · intro x hx m hm
                rcases List.mem_append.mp hx with hx | hx
                · exact h1 x hx m hm
                · have hxc : x = current := by simpa using hx
                  subst hxc
                  rw [hmc] at hm
                  cases hm
              · intro x hxs
                rcases h2 x hxs with h | h
                · exact Or.inl (List.mem_append.mpr (Or.inl h))
                · rcases List.mem_cons.mp h with h | h
                  · exact Or.inl (List.mem_append.mpr (Or.inr (by simp [h])))
                  · exact Or.inr h
          | some ma =>
              by_cases hseen : ma ∈ seen
              · simp only [hmc, hseen, not_true_eq_false, if_false] at hrun
                refine ih rest seen (ordered ++ [current]) out ?_ ?_ hrun
                · intro x hx m hm
                  rcases List.mem_append.mp hx with hx | hx
                  · exact h1 x hx m hm
                  · have hxc : x = current := by simpa using hx
                    subst hxc
                    rw [hmc] at hm
                    cases hm
                    exact hseen
                · intro x hxs
                  rcases h2 x hxs with h | h
                  · exact Or.inl (List.mem_append.mpr (Or.inl h))
                  · rcases List.mem_cons.mp h with h | h
                    · exact Or.inl (List.mem_append.mpr (Or.inr (by simp [h])))
                    · exact Or.inr h
              · simp only [hmc, hseen, not_false_eq_true, if_true] at hrun
                refine ih (rest ++ [ma]) (ma :: seen) (ordered ++ [current]) out ?_ ?_ hrun
                · intro x hx m hm
                  rcases List.mem_append.mp hx with hx | hx
                  · exact List.mem_cons.mpr (Or.inr (h1 x hx m hm))
                  · have hxc : x = current := by simpa using hx
                    subst hxc
                    rw [hmc] at hm
                    cases hm
                    exact List.mem_cons.mpr (Or.inl rfl)
                · intro x hxs
                  rcases List.mem_cons.mp hxs with h | h
                  · subst h
                    exact Or.inr (List.mem_append.mpr (Or.inr (by simp)))
                  · rcases h2 x h with h | h
                    · exact Or.inl (List.mem_append.mpr (Or.inl h))
                    · rcases List.mem_cons.mp h with h | h
                      · exact Or.inl (List.mem_append.mpr (Or.inr (by simp [h])))
                      · exact Or.inr (List.mem_append.mpr (Or.inl h))

theorem materialize_name (matcher : TemplateMatcher)
    (custom : List GdtfAttribute) (n : String) :
    (materializeAttribute matcher custom n).name = n := by
  unfold materializeAttribute
  cases matcher n with
  | some tg => rfl
  | none =>
      cases hf : custom.find? (fun a => a.name == n) with
      | none => rfl
      | some a =>
          have := List.find?_some hf
          simpa using this

theorem assign_length (offset : Option (List Int)) :
    ∀ (p : Option DmxValue) (l : List ChannelFunction),
      (assignFunctionDmxTos offset p l).length = l.length
  | _, [] => by simp [assignFunctionDmxTos]
  | none, f :: rest => by
      simp [assignFunctionDmxTos, assign_length offset _ rest]
  | some p, f :: rest => by
      simp [assignFunctionDmxTos, assign_length offset _ rest]

theorem calculateDmxTo_length (offset : Option (List Int))
    (fs : List ChannelFunction) :
    (calculateDmxTo offset fs).length = fs.length := by
  rw [calculateDmxTo, assign_length]
  exact (List.perm_insertionSort _ fs).length_eq

theorem ite_empty_ne {α : Type} (fb : List α) (hf : fb ≠ []) (l : List α) :
    (if l.isEmpty = true then fb else l) ≠ [] := by
  split
  · exact hf
  · next h => simpa [List.isEmpty_iff] using h

theorem readLogicalChannel_functions_ne (le : Xml) :
    (readLogicalChannel le).channelFunctions ≠ [] := by
  simp only [readLogicalChannel]
  intro hc
  rw [List.map_eq_nil_iff] at hc
  rw [List.enum_eq_nil] at hc
  exact ite_empty_ne [noFeatureChannelFunction] (by simp) _ hc

theorem key_mem_of_attrsEq (a b : List (String × String))
    (h : attrsEq a b = true) (kv : String × String) (hkv : kv ∈ b) :
    kv.1 ∈ a.map Prod.fst := by
  unfold attrsEq at h
  obtain ⟨h1, h2⟩ := (Bool.and_eq_true _ _).mp h
  have hall := List.all_eq_true.mp h2 kv hkv
  cases hf : a.find? (fun kv2 => kv2.1 == kv.1) with
  | none => rw [hf] at hall; simp at hall
  | some x =>
      have hx : x ∈ a := List.mem_of_find?_eq_some hf
      have hpx := (List.find?_eq_some.mp hf).1
      have hxeq : x.1 = kv.1 := by simpa using hpx
      exact hxeq ▸ List.mem_map.mpr ⟨x, hx, rfl⟩

theorem writeChannelSet_has_dmxFrom (cs : ChannelSet) :
    ("DMXFrom", dmxValueStr cs.dmxFrom) ∈ (writeChannelSet cs).attrib ∧
    ("WheelSlotIndex", toString cs.wheelSlotIndex) ∈ (writeChannelSet cs).attrib := by
  constructor <;> simp [writeChannelSet, Xml.attrib, List.mem_append]

end Pygdtf

/-! Theorems settling the claims. -/

namespace Pygdtf

theorem filterMap_id_replicate_set (m j : Nat) (c : DmxChannel) (h : j < m) :
    ((List.replicate m (none : Option DmxChannel)).set j (some c)).filterMap id =
      [c] := by
  induction m generalizing j with
  | zero => omega
  | succ m ih =>
    cases j with
    | zero => simp [List.replicate_succ, List.filterMap_replicate]
    | succ j =>
      have hj : j < m := by omega
      simp [List.replicate_succ, ih j hj]

/-- Claim C1, counterexample to the literal statement: with one channel at
break 1 address 1 and one at break 2 address 3, resolution completes (the
filler scan only watches the flattened count against the highest offset) and
break 2 is left with gaps: addresses 1 and 2 of break 2 are covered by no
channel although its maximum observed offset is 3. -/
theorem c1_address_space_counterexample :
    addressSpaceOk (readXmlResolve baseGeoms c1State).dmxChannels = false := by
  decide

end Pygdtf

namespace Pygdtf

/-- Claim C1 (amended): for a mode whose root-geometry link resolves to a
reference-free geometry and whose authored channels are all break-1
single-slot channels at positive addresses, the resolved flattened list
covers every address between 1 and the maximum observed offset of each
break by exactly one channel — no duplicates, no gaps. -/
theorem c1_address_space_amended (geoms : List Geometry) (st : DmxModeState) (root : Geometry)
    (h1 : getGeometryByName geoms st.geometry = some root)
    (h2 : refFree root = true)
    (h3 : ∀ c ∈ st.channels, ChanShape c) :
    addressSpaceOk (readXmlResolve geoms st).dmxChannels = true := by
  obtain ⟨hD2, hV2, bl, hflat, hok, hocc⟩ :=
    pass_flat geoms st.geometry root st.channels h1 h2 h3
  have hshape := chanShape_of_slots bl hok
  have hst1d : (processDmxChannels geoms st).dmxChannels = bl.filterMap id := by
    simp only [processDmxChannels]
    exact hflat
  have hst1c : (processDmxChannels geoms st).channels = st.channels := by
    simp only [processDmxChannels]
    rw [hD2, hV2]
  have hst1g : (processDmxChannels geoms st).geometry = st.geometry := rfl
  have hH : highestOffset (bl.filterMap id) =
      maxCoarseFrom 0 (bl.filterMap id) :=
    highestOffset_eq_maxCoarse _ (fun c hc => (hshape c hc).2)
  have hM0 : (0 : Int) ≤ maxCoarseFrom 0 (bl.filterMap id) :=
    le_maxCoarseFrom _ 0
  have hread : readXmlResolve geoms st =
      (if (checkForMissingChannels (processDmxChannels geoms st)).1 then
        processDmxChannels geoms
          (checkForMissingChannels (processDmxChannels geoms st)).2
      else processDmxChannels geoms st) := rfl
  by_cases hlen : (((processDmxChannels geoms st).dmxChannels.length : Int)) =
      highestOffset (processDmxChannels geoms st).dmxChannels
  · -- channel count matches the highest offset: no fillers are appended
    have hchk : checkForMissingChannels (processDmxChannels geoms st) =
        (false, processDmxChannels geoms st) := by
      simp only [checkForMissingChannels]
      rw [if_neg (not_not_intro hlen)]
    rw [hread, hchk]
    simp only [Bool.false_eq_true, if_false]
    rw [hst1d]
    apply aso_of_cover bl hok
    intro a ha1 ha2
    rw [hst1d, hH] at hlen
    have hcov := slots_cover bl 0 (maxCoarseFrom 0 (bl.filterMap id)) hok
      (slots_hub bl hok) (by push_cast; omega) a (by push_cast; omega) ha2
    obtain ⟨c, hc⟩ := hcov
    have hidx : (a - ((0 : Nat) : Int) - 1).toNat = (a - 1).toNat := by
      push_cast; omega
    rw [hidx] at hc
    exact ⟨c, hc⟩
  · -- channel count disagrees with the highest offset
    have hchk : checkForMissingChannels (processDmxChannels geoms st) =
        (decide (¬ ((((List.range
            (highestOffset (processDmxChannels geoms st).dmxChannels).toNat).map
              (fun (k : Nat) => (k : Int) + 1)).filter
            (fun i => ¬ addressCovered (processDmxChannels geoms st).dmxChannels i)).isEmpty
            = true)),
          { processDmxChannels geoms st with
            channels := (processDmxChannels geoms st).channels ++
              (((List.range
                (highestOffset (processDmxChannels geoms st).dmxChannels).toNat).map
                  (fun (k : Nat) => (k : Int) + 1)).filter
                (fun i => ¬ addressCovered (processDmxChannels geoms st).dmxChannels i)).map
                (fillerChannel (processDmxChannels geoms st).geometry) }) := by
      simp only [checkForMissingChannels]
      rw [if_pos hlen]
    rw [hread, hchk]
    rw [hst1d, hH] at hlen
    have hml : ∀ a : Int, 1 ≤ a → a ≤ maxCoarseFrom 0 (bl.filterMap id) →
        a ∈ (List.range
          (highestOffset (bl.filterMap id)).toNat).map
            (fun (k : Nat) => (k : Int) + 1) := by
      intro a ha1 ha2
      simp only [List.mem_map, List.mem_range]
      refine ⟨(a - 1).toNat, ?_, by omega⟩
      rw [hH]
      omega
    by_cases hemp : ((((List.range
        (highestOffset (processDmxChannels geoms st).dmxChannels).toNat).map
          (fun (k : Nat) => (k : Int) + 1)).filter
        (fun i => ¬ addressCovered (processDmxChannels geoms st).dmxChannels i)).isEmpty
        = true)
    · -- nothing was actually missing: no fillers, result is the first pass
      rw [hemp]
      simp only [decide_not, decide_True, Bool.not_true, Bool.false_eq_true,
        if_false]
      rw [hst1d]
      apply aso_of_cover bl hok
      intro a ha1 ha2
      have hmem := hml a ha1 ha2
      rw [List.isEmpty_iff] at hemp
      have hnc : ¬ (a ∈ ((List.range
          (highestOffset (processDmxChannels geoms st).dmxChannels).toNat).map
            (fun (k : Nat) => (k : Int) + 1)).filter
          (fun i => ¬ addressCovered (processDmxChannels geoms st).dmxChannels i)) := by
        rw [hemp]
        exact List.not_mem_nil a
      rw [List.mem_filter] at hnc
      push_neg at hnc
      have hcovd := hnc (by rw [hst1d]; exact hmem)
      simp only [decide_not, hst1d, Bool.not_eq_true, decide_eq_false_iff_not,
        Decidable.not_not] at hcovd
      have hcovd2 : addressCovered (bl.filterMap id) a = true := by
        cases hx : addressCovered (bl.filterMap id) a
        · exact absurd hx hcovd
        · rfl
      exact (occupied_of_covered bl hok a hcovd2).2
    · -- fillers are appended and the channels are resolved a second time
      have hcond : (decide (¬ ((((List.range
          (highestOffset (processDmxChannels geoms st).dmxChannels).toNat).map
            (fun (k : Nat) => (k : Int) + 1)).filter
          (fun i => ¬ addressCovered (processDmxChannels geoms st).dmxChannels i)).isEmpty
          = true))) = true := by
        simp only [decide_eq_true_iff]
        exact hemp
      rw [if_pos hcond]
      rw [hst1d, hst1c, hst1g]
      have hfinal : addressSpaceOk ((getDmxChannels geoms st.geometry
          (st.channels ++ (((List.range
            (highestOffset (bl.filterMap id)).toNat).map
              (fun (k : Nat) => (k : Int) + 1)).filter
            (fun i => ¬ addressCovered (bl.filterMap id) i)).map
            (fillerChannel st.geometry))).1.flatten) = true := by
        set miss := ((List.range (highestOffset (bl.filterMap id)).toNat).map
            (fun (k : Nat) => (k : Int) + 1)).filter
            (fun i => ¬ addressCovered (bl.filterMap id) i) with hmissdef
        set fillers := miss.map (fillerChannel st.geometry) with hfildef
        set chs2 := st.channels ++ fillers with hchs2def
        have hmiss_mem : ∀ i : Int, i ∈ miss ↔
            ((1 ≤ i ∧ i ≤ highestOffset (bl.filterMap id)) ∧
              addressCovered (bl.filterMap id) i = false) := by
          intro i
          rw [hmissdef, List.mem_filter]
          simp only [List.mem_map, List.mem_range, decide_eq_true_iff,
            Bool.not_eq_true]
          constructor
          · rintro ⟨⟨k, hk, rfl⟩, hnc⟩
            exact ⟨⟨by omega, by omega⟩, hnc⟩
          · rintro ⟨⟨h1i, h2i⟩, hcov⟩
            exact ⟨⟨(i - 1).toNat, by omega, by omega⟩, hcov⟩
        have h3' : ∀ c ∈ chs2, ChanShape c := by
          intro c hc
          rw [hchs2def] at hc
          rcases List.mem_append.mp hc with hc | hc
          · exact h3 c hc
          · rw [hfildef] at hc
            obtain ⟨i, hi, rfl⟩ := List.mem_map.mp hc
            exact ⟨rfl, i, ((hmiss_mem i).mp hi).1.1, rfl⟩
        obtain ⟨hD2b, hV2b, bl2, hflat2, hok2, hocc2⟩ :=
          pass_flat geoms st.geometry root chs2 h1 h2 h3'
        rw [hflat2]
        apply aso_of_cover bl2 hok2
        have hname : geomName root = st.geometry :=
          name_of_foundList st.geometry geoms root h1
        obtain ⟨rcc, hrootn⟩ : ∃ rcc, root = Geometry.node st.geometry rcc := by
          cases root with
          | node n cc =>
              have hn : n = st.geometry := hname
              exact ⟨cc, by rw [hn]⟩
          | ref n t bs => exact absurd h2 (by simp [refFree])
        have hnowF : ∀ c ∈ fillers, c.dmxBreak ≠ DmxBreakVal.overwrite := by
          intro c hc h
          rw [hfildef] at hc
          obtain ⟨i, hi, rfl⟩ := List.mem_map.mp hc
          simp [fillerChannel] at h
        have hfill_occ : ∀ i ∈ miss, 1 ≤ i ∧
            ∃ c, bl2[(i - 1).toNat]? = some (some c) := by
          intro i hi
          have hpair : (fillerChannel st.geometry i, root) ∈
              collectPairs root chs2 := by
            rw [hchs2def]
            apply (collect_append_mem root st.channels fillers _).mpr
            right
            rw [hrootn]
            apply mem_collect_of_match st.geometry rcc fillers
              (fillerChannel st.geometry i) ?_ rfl ?_
            · rw [hfildef]
              exact List.mem_map.mpr ⟨i, hi, rfl⟩
            · intro h
              simp [fillerChannel] at h
          exact (hocc2 i).mpr ⟨(fillerChannel st.geometry i, root), hpair, rfl⟩
        have htrans : ∀ a : Int,
            (1 ≤ a ∧ ∃ c, bl[(a - 1).toNat]? = some (some c)) →
            1 ≤ a ∧ ∃ c, bl2[(a - 1).toNat]? = some (some c) := by
          intro a h
          obtain ⟨p, hp, hcp⟩ := (hocc a).mp h
          refine (hocc2 a).mpr ⟨p, ?_, hcp⟩
          rw [hchs2def]
          exact (collect_append_mem root st.channels fillers p).mpr (Or.inl hp)
        have hm2le : maxCoarseFrom 0 (bl2.filterMap id) ≤
            maxCoarseFrom 0 (bl.filterMap id) := by
          rcases maxCoarseFrom_cases (bl2.filterMap id) 0 with hc | ⟨c, hcL2, hc⟩
          · rw [hc]; exact hM0
          · rw [hc]
            obtain ⟨o, ho, hoc⟩ := List.mem_filterMap.mp hcL2
            simp only [id] at hoc
            subst hoc
            obtain ⟨j, hj⟩ := List.getElem?_of_mem ho
            obtain ⟨_, hoff⟩ := hok2 j c hj
            have hcoarse : coarseOf c = (j : Int) + 1 := by
              rw [coarseOf, hoff]
              simp only [Option.getD_some, List.headD_cons]
              omega
            have hjocc : 1 ≤ (j : Int) + 1 ∧
                ∃ d, bl2[(((j : Int) + 1) - 1).toNat]? = some (some d) := by
              refine ⟨by omega, c, ?_⟩
              have hidx : (((j : Int) + 1) - 1).toNat = j := by omega
              rw [hidx]
              exact hj
            obtain ⟨p, hp, hpc⟩ := (hocc2 ((j : Int) + 1)).mp hjocc
            rw [hchs2def] at hp
            rcases (collect_append_mem root st.channels fillers p).mp hp
              with hp1 | hpf
            · have hb1 := (hocc ((j : Int) + 1)).mpr ⟨p, hp1, hpc⟩
              have hle := occ_le_max bl hok ((j : Int) + 1) (by omega) hb1.2
              omega
            · obtain ⟨hpmem, _⟩ := collect_mem root fillers hnowF h2 p hpf
              rw [hfildef] at hpmem
              obtain ⟨i, hi, hpi⟩ := List.mem_map.mp hpmem
              have hpc2 : coarseOf p.1 = i := by
                rw [← hpi]
                rfl
              have hmm := (hmiss_mem i).mp hi
              rw [hH] at hmm
              omega
        intro a ha1 ha2
        have ha2b : a ≤ maxCoarseFrom 0 (bl.filterMap id) := le_trans ha2 hm2le
        by_cases hcov : addressCovered (bl.filterMap id) a = true
        · exact (htrans a (occupied_of_covered bl hok a hcov)).2
        · have hfa : addressCovered (bl.filterMap id) a = false := by
            cases hx : addressCovered (bl.filterMap id) a
            · rfl
            · exact absurd hx hcov
          have hmem : a ∈ miss :=
            (hmiss_mem a).mpr ⟨⟨ha1, by rw [hH]; exact ha2b⟩, hfa⟩
          exact (hfill_occ a hmem).2
      exact hfinal

end Pygdtf

namespace Pygdtf

/-- Claim C1 witness: the amended theorem applied at the concrete
single-channel mode `c1AmendedState` (which exercises the filler branch:
one channel at address 2, then a NoFeature filler at address 1). -/
theorem c1_address_space_amended_witness :
    addressSpaceOk (readXmlResolve baseGeoms c1AmendedState).dmxChannels = true := by
  have hch : ∀ c ∈ c1AmendedState.channels, ChanShape c := by
    intro c hc
    have : c = plainChannel "Base" 1 [2] := by
      simpa [c1AmendedState, freshMode] using hc
    subst this
    exact ⟨rfl, 2, by norm_num, rfl⟩
  exact c1_address_space_amended baseGeoms c1AmendedState
    (Geometry.node (some "Base") []) rfl rfl hch

/-- Claim C2, counterexample to the literal statement: two functions
authored with the same `dmx_from` 0 both resolve with saturated `dmx_to`
255, so the ascending chain condition `dmx_to + 1 = next dmx_from` fails on
the adjacent equal pair. -/
theorem c2_boundary_counterexample :
    ¬ ascBoundarySpec (fun f => bcFor (some [1]) f.dmxFrom)
      (sortFunctionsAsc (calculateDmxTo (some [1])
        [functionWithDmxFrom 0, functionWithDmxFrom 0])) := by
  intro h
  obtain ⟨h1, -⟩ := h
  rw [show sortFunctionsAsc (calculateDmxTo (some [1])
      [functionWithDmxFrom 0, functionWithDmxFrom 0]) = [c2Resolved, c2Resolved]
    from by decide] at h1
  have h2 := (List.chain'_cons.mp h1).1
  simp [c2Resolved, functionWithDmxFrom, noFeatureChannelFunction] at h2

/-- Claim C2 (amended): for a LogicalChannel whose authored functions carry
pairwise-distinct, non-negative `dmx_from` values, the computed `dmx_to`
chain is exact — sorted ascending by `dmx_from`, every adjacent pair
satisfies `dmx_to + 1 = next dmx_from` and the last function saturates at
`2^(8*byte_count) - 1` (byte count chosen from the channel's offset-slot
count, or the function's own `dmx_from` byte count when virtual). -/
theorem c2_boundary_amended (offset : Option (List Int))
    (fs : List ChannelFunction)
    (hnd : (fs.map (fun f => f.dmxFrom.value)).Nodup)
    (hnn : ∀ f ∈ fs, 0 ≤ f.dmxFrom.value) :
    ascBoundarySpec (fun f => bcFor offset f.dmxFrom)
      (sortFunctionsAsc (calculateDmxTo offset fs)) := by
  have hperm : List.Perm (sortFunctionsDesc fs) fs := List.perm_insertionSort _ fs
  have hsorted : List.Pairwise (fun a b : ChannelFunction =>
      b.dmxFrom.value ≤ a.dmxFrom.value) (sortFunctionsDesc fs) :=
    List.sorted_insertionSort _ fs
  have hnd2 : ((sortFunctionsDesc fs).map (fun f => f.dmxFrom.value)).Nodup :=
    ((hperm.map _).nodup_iff).mpr hnd
  have hpne : List.Pairwise (fun a b : ChannelFunction =>
      a.dmxFrom.value ≠ b.dmxFrom.value) (sortFunctionsDesc fs) := by
    simp only [List.Nodup, List.pairwise_map] at hnd2
    exact hnd2
  have hstrict : List.Pairwise (fun a b : ChannelFunction =>
      b.dmxFrom.value < a.dmxFrom.value) (sortFunctionsDesc fs) :=
    (hsorted.and hpne).imp (fun h => lt_of_le_of_ne h.1 (Ne.symm h.2))
  have hnnl : ∀ f ∈ sortFunctionsDesc fs, 0 ≤ f.dmxFrom.value :=
    fun f hf => hnn f (hperm.subset hf)
  have hspec := assign_none_spec offset (sortFunctionsDesc fs) hstrict hnnl
  have houtval : (calculateDmxTo offset fs).map (fun f => f.dmxFrom.value) =
      (sortFunctionsDesc fs).map (fun f => f.dmxFrom.value) :=
    assign_map_dmxFromVal offset none (sortFunctionsDesc fs)
  have houtstrict : List.Pairwise (fun a b : ChannelFunction =>
      b.dmxFrom.value < a.dmxFrom.value) (calculateDmxTo offset fs) := by
    have h1 : List.Pairwise (fun a b : Int => b < a)
        ((calculateDmxTo offset fs).map (fun f => f.dmxFrom.value)) := by
      rw [houtval, List.pairwise_map]
      exact hstrict
    rw [List.pairwise_map] at h1
    exact h1
  rw [sortAsc_of_strict_desc _ houtstrict]
  exact hspec

/-- Claim C2 witness: the amended theorem applied to two functions with
distinct `dmx_from` values 0 and 128. -/
theorem c2_boundary_witness :
    ascBoundarySpec (fun f => bcFor (some [1]) f.dmxFrom)
      (sortFunctionsAsc (calculateDmxTo (some [1])
        [functionWithDmxFrom 0, functionWithDmxFrom 128])) :=
  c2_boundary_amended (some [1]) [functionWithDmxFrom 0, functionWithDmxFrom 128]
    (by decide) (by decide)

/-- Claim C3: evaluation exhibiting the broken special branch of
`dmx_to_physical`.  With dmx_from 0, dmx_to 255, physical_from 255,
physical_to 500 the branch `(dmx_from - dmx_to) + physical_from == 0` fires
and returns `(dmx_from - dmx_from) * (physical_to - physical_from)`, which
is identically zero: the interpolation endpoints land on 0 instead of 255
and 500. -/
theorem c3_interpolation_zero_branch :
    dmxToPhysical 0 0 255 255 500 = 0 ∧ dmxToPhysical 255 0 255 255 500 = 0 := by
  constructor <;> norm_num [dmxToPhysical]

/-- Claim C4: for the mode with channels at offsets 1, 2, 3, 5 of break 1,
resolution appends exactly one filler to the authored list — a NoFeature
channel (NoFeature attribute link and name) at the single missing offset
4 — and the recomputed `dmx_channels_count` is 5. -/
theorem c4_missing_channel_scenario :
    (readXmlResolve baseGeoms c4State).channels =
      c4State.channels ++ [fillerChannel (some "Base") 4] ∧
    (fillerChannel (some "Base") 4).attr = noFeatureLink ∧
    (fillerChannel (some "Base") 4).name = some "NoFeature" ∧
    (fillerChannel (some "Base") 4).offset = some [4] ∧
    (readXmlResolve baseGeoms c4State).dmxChannelsCount = 5 := by
  refine ⟨by decide, rfl, rfl, rfl, by decide⟩

/-- Claim C5: a channel authored at break 1 with offset slots `os`, owned by
the subtree a GeometryReference points at, resolves each slot shifted by
the declared Break address minus one: offsets become `os[i] + (A - 1)` and
the channel is renamed to the reference. -/
theorem c5_reference_offset_shift (target : String) (os : List Int) (a : Int)
    (ht : target ≠ "Base") (hos : os ≠ []) (hlen : os.length ≤ 4)
    (hpos : ∀ x ∈ os, 1 ≤ x) (ha : 1 ≤ a) :
    (getDmxChannels (c5Geoms target a) (some "Base")
        [c5Channel target os]).1.flatten.map
      (fun c => (c.dmxBreak, c.offset, c.geometry)) =
      [(DmxBreakVal.int 1, some (os.map (fun x => x + (a - 1))), some "Head1")] := by
  obtain ⟨x, rest, rfl⟩ : ∃ x rest, os = x :: rest := by
    cases os with
    | nil => exact absurd rfl hos
    | cons x r => exact ⟨x, r, rfl⟩
  have hx : 1 ≤ x := hpos x (by simp)
  have htb : ((some target : Option String) == some "Base") = false := by
    simp [ht]
  simp [getDmxChannels, dmxRootOf, c5Geoms, getGeometryByName,
    getGeometryByNameInList, getGeometryByNameIn, getChannelsForGeometry,
    collectPairs, collectPairsList, gatherAtGeometry, matchName, c5Channel,
    plainChannel, refTargets, refTargetsList, markTargets, gatherTransform,
    htb, bucketChannel, getAddressByBreak]
  have hs0 : (1:Int) ≤ x + (a - 1) := by omega
  have hle : (x + (a - 1)) ≤ (x + (a - 1)) ⊔
      ((rest[0]?).map (fun x => x + (a - 1))).getD 0 ⊔
      (((rest[1]?).map (fun x => x + (a - 1))).getD 0 ⊔
        ((rest[2]?).map (fun x => x + (a - 1))).getD 0) :=
    le_trans le_sup_left le_sup_left
  rw [if_pos, filterMap_id_replicate_set]
  · simp
  · omega
  · exact Or.inl (Or.inl (by omega))

/-- Claim C5 witness: the scenario of the claim itself — reference Break
DMXBreak 1 DMXOffset 5, channel at break 1 offset 1 — lands on break 1,
address 5. -/
theorem c5_reference_offset_shift_witness :
    (getDmxChannels (c5Geoms "Head" 5) (some "Base")
        [c5Channel "Head" [1]]).1.flatten.map
      (fun c => (c.dmxBreak, c.offset, c.geometry)) =
      [(DmxBreakVal.int 1, some ([1].map (fun x => x + (5 - 1))), some "Head1")] :=
  c5_reference_offset_shift "Head" [1] 5 (by decide) (by decide) (by decide)
    (by decide) (by decide)

/-- Claim C6: evaluation of the gather step on an Overwrite channel owned
through a GeometryReference whose last Break entry declares dmx_break 2.
The gathered copy carries break 1 (not 2) and keeps the subtree geometry
name ("Head", not the reference name): the unguarded second
`if channel.dmx_break == "Overwrite"` block of `_get_channels_for_geometry`
discards the reference-break copy built just above it. -/
theorem c6_overwrite_break_evaluation :
    (gatherAtGeometry [c6OverwriteChannel] c6RefGeometry).map
      (fun pc => (pc.1.dmxBreak, pc.1.geometry, pc.1.overwrite)) =
      [(DmxBreakVal.int 1, some "Head", true)] ∧
    c6RefGeometry = Geometry.ref (some "Head1") (some "Head") [⟨⟨1, 1⟩, 2⟩] := by
  exact ⟨rfl, rfl⟩

end Pygdtf

namespace Pygdtf

/-- Claim C7, counterexample to the literal statement: a ChannelSet element
authored with no attributes at all does not round-trip structurally — the
writer always emits DMXFrom and WheelSlotIndex, so the rewritten element
differs from the source. -/
theorem c7_roundtrip_counterexample :
    structEq c7SourceElement
      (writeChannelSet (readChannelSet c7SourceElement)) = false := by
  rfl

/-- Claim C7 (amended, ChannelSet level): the writer emits DMXFrom and
WheelSlotIndex unconditionally, so a read-write round trip of a ChannelSet
element is structurally equal to its source only when the source itself
carries those keys; conversely every rewritten element carries them.  (The
provenance-gated attributes round-trip by construction; these two are the
always-emitted ones.) -/
theorem c7_roundtrip_amended (e : Xml) :
    "DMXFrom" ∈ (writeChannelSet (readChannelSet e)).attrib.map Prod.fst ∧
    "WheelSlotIndex" ∈ (writeChannelSet (readChannelSet e)).attrib.map Prod.fst ∧
    (structEq e (writeChannelSet (readChannelSet e)) = true →
      "DMXFrom" ∈ e.attrib.map Prod.fst ∧
      "WheelSlotIndex" ∈ e.attrib.map Prod.fst) := by
  obtain ⟨hd, hw⟩ := writeChannelSet_has_dmxFrom (readChannelSet e)
  refine ⟨List.mem_map.mpr ⟨_, hd, rfl⟩, List.mem_map.mpr ⟨_, hw, rfl⟩, ?_⟩
  intro hse
  cases e with
  | elem t a c =>
      cases hwx : writeChannelSet (readChannelSet (Xml.elem t a c)) with
      | elem tw aw cw =>
          rw [hwx] at hse
          unfold structEq at hse
          obtain ⟨h1, h2⟩ := (Bool.and_eq_true _ _).mp hse
          obtain ⟨h3, h4⟩ := (Bool.and_eq_true _ _).mp h1
          obtain ⟨h5, h6⟩ := (Bool.and_eq_true _ _).mp h3
          rw [hwx] at hd hw
          exact ⟨key_mem_of_attrsEq a aw h6 _ hd, key_mem_of_attrsEq a aw h6 _ hw⟩

/-- Claim C8: channel resolution is a bounded two-pass fixed point — after
`_read_xml`'s resolve (process once, and once more exactly when fillers
were appended), a further `_process_dmx_channels` run changes nothing:
channels, dmx_channels, virtual_channels, dmx_breaks and both counts are
all left as they were. -/
theorem c8_resolution_idempotent (geoms : List Geometry) (st : DmxModeState) :
    processDmxChannels geoms (readXmlResolve geoms st) =
      readXmlResolve geoms st := by
  rw [readXmlResolve]
  split
  · exact process_process geoms _
  · exact process_process geoms st

end Pygdtf

namespace Pygdtf

/-- Claim C9: attribute regeneration is dependency-closed — whenever it
returns a result, every materialized attribute whose matched template
declares a (placeholder-substituted) main attribute has that main
attribute materialized as an entry of the returned list too. -/
theorem c9_dependency_closure (matcher : TemplateMatcher) (fuel : Nat)
    (modes : List DmxModeState) (custom : List GdtfAttribute)
    (result : List GdtfAttribute × List String)
    (h : regenerateAttributeDefinitions matcher fuel modes custom = some result) :
    ∀ a ∈ result.1, ∀ m, mainOf matcher a.name = some m →
      ∃ b ∈ result.1, b.name = m := by
  unfold regenerateAttributeDefinitions at h
  cases he : expandAttributeDependencies matcher fuel (collectAttributeNames modes) with
  | none => rw [he] at h; cases h
  | some names =>
      rw [he] at h
      have hres : result.1 = names.map (materializeAttribute matcher custom) := by
        cases h
        rfl
      have hspec : ∀ x ∈ names, ∀ m, mainOf matcher x = some m → m ∈ names := by
        refine expandWorklist_spec matcher fuel (collectAttributeNames modes)
          (collectAttributeNames modes) [] names ?_ ?_ he
        · intro x hx
          simp at hx
        · intro x hx
          exact Or.inr hx
      intro a ha m hm
      rw [hres] at ha
      obtain ⟨n, hn, rfl⟩ := List.mem_map.mp ha
      rw [materialize_name] at hm
      have hmn := hspec n hn m hm
      refine ⟨materializeAttribute matcher custom m, ?_, materialize_name _ _ _⟩
      rw [hres]
      exact List.mem_map.mpr ⟨m, hmn, rfl⟩

/-- Claim C9 witness: on the mode whose single channel uses
Gobo1SelectShake (whose template's main attribute is Gobo1), the returned
list contains a Gobo1 entry although no channel references it. -/
theorem c9_dependency_closure_witness :
    ∃ b ∈ c9Result.1, b.name = "Gobo1" :=
  c9_dependency_closure c9Matcher 4 [c9Mode] [] c9Result rfl
    ⟨"Gobo1SelectShake", some "Select Shake", none, some "Gobo.Gobo",
      some "Gobo1"⟩
    (List.mem_cons_self _ _) "Gobo1" rfl

end Pygdtf

namespace Pygdtf

/-- Claim C10: parsing any DMXChannel element yields a non-empty
logical-channel list whose members all have non-empty channel-function
lists; when the source element has no LogicalChannel children (or a
LogicalChannel has no ChannelFunction children) the synthesized entries
carry the NoFeature attribute link. -/
theorem c10_nonempty_synthesis (e : Xml) :
    (readDmxChannel e).logicalChannels ≠ [] ∧
    (∀ lc ∈ (readDmxChannel e).logicalChannels, lc.channelFunctions ≠ []) ∧
    ((e.findAll "LogicalChannel").isEmpty = true →
      (readDmxChannel e).logicalChannels.map (fun lc => lc.attr) = [noFeatureLink]) ∧
    (∀ le, (le.findAll "ChannelFunction").isEmpty = true →
      (readLogicalChannel le).channelFunctions.map (fun cf => cf.attr) =
        [noFeatureLink]) := by
  refine ⟨?_, ?_, ?_, ?_⟩
  · simp only [readDmxChannel]
    intro hc
    rw [List.map_eq_nil_iff] at hc
    exact ite_empty_ne [noFeatureLogicalChannel] (by simp) _ hc
  · intro lc hlc
    simp only [readDmxChannel] at hlc
    rw [List.mem_map] at hlc
    obtain ⟨lc0, hlc0, rfl⟩ := hlc
    have hne : lc0.channelFunctions ≠ [] := by
      by_cases hp : ((e.findAll "LogicalChannel").map readLogicalChannel).isEmpty = true
      · rw [if_pos hp] at hlc0
        have : lc0 = noFeatureLogicalChannel := by simpa using hlc0
        subst this
        simp [noFeatureLogicalChannel]
      · rw [if_neg hp] at hlc0
        obtain ⟨le, _, rfl⟩ := List.mem_map.mp hlc0
        exact readLogicalChannel_functions_ne le
    simp only [ne_eq, ← List.length_eq_zero] at hne ⊢
    rw [calculateDmxTo_length]
    exact hne
  · intro h
    rw [List.isEmpty_iff] at h
    simp [readDmxChannel, h, noFeatureLogicalChannel]
  · intro le h
    rw [List.isEmpty_iff] at h
    simp [readLogicalChannel, h, noFeatureChannelFunction, noFeatureLink]

end Pygdtf
